import Mathlib

/-!
# Procedural heightmap synthesis (`src/src/noise.h`)

A shallow embedding of the Perlin basis `perlin2D` and of the fractal
accumulator inside `generateNoise`, followed by the properties proved of them.

Conventions of the embedding.

* `float` values are elements of an arbitrary field `F` (exact arithmetic);
  every definition is executable at `F = ℚ`.
* `int` values are mathematical integers; `/` and `%` are the truncating
  `Int.tdiv` and `Int.tmod` of C++.  The allocation sizes `width * height` and
  `width * height * 2` are taken to fit in an `int`.  Every index expression of
  the source is then below `2 ^ 31` up to and including the first access that
  leaves an allocation, so index arithmetic is exact.  The coordinate scaling
  `I *= (int) lacunarity` can leave the 32-bit range while all buffers fit; its
  product is wrapped to 32 bits.  `(int) lacunarity` is truncation toward zero.
* A heap array `new float[n]` is a list of `n` cells, each either
  uninitialised (`none`) or holding a value.  Reading an uninitialised cell or
  accessing a cell outside the allocation has no defined result, so every
  function that touches a buffer returns an `Option`, `none` standing for
  undefined behaviour.
* `rand01`, `cos`, `sin` and `std::pow` are library code.  The pair
  `(cos (2 * angle * π), sin (2 * angle * π))` drawn for cell `(i, j)` is the
  parameter `gv i j`; `std::pow` is the parameter `pw`.
* `period = 0` (a division by zero in the source) is outside the model.
-/

namespace ProceduralTerrain

/-! ## Scalars and vectors -/

section Scalars

variable {F : Type} [Field F]

/-- Parameterised linear interpolation (`noise.h:9-11`). -/
def lerp (x y t : F) : F :=
  (y - x) * t + x

/-- Quintic smoothing curve (`noise.h:13-15`). -/
def fade (t : F) : F :=
  t * t * t * (t * (t * 6 - 15) + 10)

/-- Dot product of two `Vec2` values (`a.dot(b)`). -/
def dot (a b : F × F) : F :=
  a.1 * b.1 + a.2 * b.2

end Scalars

/-! ## Heap buffers -/

/-- A `float*` allocation: one cell per element, `none` while uninitialised. -/
abbrev Buffer (F : Type) := List (Option F)

/-- Allocation `new float[n]`: `n` uninitialised cells. -/
def alloc (F : Type) (n : Int) : Buffer F :=
  List.replicate n.toNat none

/-- Read `b[n]`; undefined outside the allocation and on an uninitialised cell. -/
def readBuf {F : Type} (b : Buffer F) (n : Int) : Option F :=
  if 0 ≤ n then b[n.toNat]?.join else none

/-- Write `b[n] = v`; undefined outside the allocation. -/
def writeBuf {F : Type} (b : Buffer F) (n : Int) (v : F) : Option (Buffer F) :=
  if 0 ≤ n ∧ n.toNat < b.length then some (b.set n.toNat (some v)) else none

/-- Counting loop `for (int i = 0; i < n; ++i)` threading a state through a
body that may fail. -/
def forLoop {σ : Type} (n : Int) (body : Int → σ → Option σ) (s : σ) : Option σ :=
  (List.range n.toNat).foldlM (fun st (i : Nat) => body (i : Int) st) s

/-! ## `perlin2D` -/

section Perlin

variable {F : Type} [Field F]

/-- The lambda `sample_gradient` of `perlin2D` (`noise.h:113-117`). -/
def sample_gradient (gradients : Buffer F) (height i j : Int) : Option (F × F) := do
  let x ← readBuf gradients (2 * (i + j * height))
  let y ← readBuf gradients (2 * (i + j * height) + 1)
  pure (x, y)

/-- Gradient fill loop of `perlin2D` (`noise.h:119-125`); `gv i j` is the
`(cos, sin)` pair of the angle drawn in iteration `(i, j)`. -/
def fillGradients (gv : Int → Int → F × F) (width height : Int)
    (gradients : Buffer F) : Option (Buffer F) :=
  forLoop width (fun i g =>
    forLoop height (fun j g => do
      let g ← writeBuf g (2 * (i + j * height)) (gv i j).1
      writeBuf g (2 * (i + j * height) + 1) (gv i j).2) g) gradients

/-- Corner `left = (i / period) * period` (`noise.h:135`). -/
def left (period i : Int) : Int :=
  (i.tdiv period) * period

/-- Corner `right = (left + period) % width` (`noise.h:136`). -/
def right (width period i : Int) : Int :=
  (left period i + period).tmod width

/-- Corner `top = (j / period) * period` (`noise.h:137`). -/
def top (period j : Int) : Int :=
  (j.tdiv period) * period

/-- Corner `bottom = (top + period) % height` (`noise.h:138`). -/
def bottom (height period j : Int) : Int :=
  (top period j + period).tmod height

/-- The constant `frequency = 1.0f / period` (`noise.h:128`). -/
def frequency (F : Type) [Field F] (period : Int) : F :=
  1 / (period : F)

/-- Local coordinate `dx = (i - left) * frequency` (`noise.h:141`). -/
def dx (F : Type) [Field F] (period i : Int) : F :=
  ((i - left period i : Int) : F) * frequency F period

/-- Local coordinate `dy = (j - top) * frequency` (`noise.h:142`). -/
def dy (F : Type) [Field F] (period j : Int) : F :=
  ((j - top period j : Int) : F) * frequency F period

/-- The interpolation formula of one cell (`noise.h:150-167`) as a function
of the four corner gradients and the local coordinates. -/
def cellFormula (topleft topright bottomleft bottomright : F × F) (dx dy : F) : F :=
  let a : F × F := (dx, -dy)
  let b : F × F := (dx - 1, -dy)
  let c : F × F := (dx, 1 - dy)
  let d : F × F := (dx - 1, 1 - dy)
  let s := dot a topleft
  let t := dot b topright
  let u := dot c bottomleft
  let v := dot d bottomright
  let st := lerp s t (fade dx)
  let uv := lerp u v (fade dx)
  lerp st uv (fade dy)

/-- Body of the pixel loop of `perlin2D` up to the store (`noise.h:134-167`),
with the gradient lookup `sample` as a parameter: the noise value of pixel
`(i, j)`. -/
def perlinNoise (sample : Int → Int → Option (F × F))
    (width height period i j : Int) : Option F := do
  let topleft ← sample (left period i) (top period j)
  let topright ← sample (right width period i) (top period j)
  let bottomleft ← sample (left period i) (bottom height period j)
  let bottomright ← sample (right width period i) (bottom height period j)
  pure (cellFormula topleft topright bottomleft bottomright (dx F period i) (dy F period j))

/-- Pixel loop of `perlin2D` (`noise.h:130-172`). -/
def perlinLoop (gradients : Buffer F) (width height period : Int)
    (perlin_data : Buffer F) : Option (Buffer F) :=
  forLoop width (fun i pd =>
    forLoop height (fun j pd => do
      let noise ← perlinNoise (sample_gradient gradients height) width height period i j
      writeBuf pd (i + j * height) noise) pd) perlin_data

/-- The function `perlin2D` (`noise.h:109-177`). -/
def perlin2D (gv : Int → Int → F × F) (width height period : Int) : Option (Buffer F) := do
  let gradients ← fillGradients gv width height (alloc F (width * height * 2))
  perlinLoop gradients width height period (alloc F (width * height))

end Perlin

/-! ## The fractal accumulator of `generateNoise` -/

section Accumulator

variable {F : Type} [LinearOrderedField F]

/-- Result of an `int` operation reduced to the 32-bit two's-complement range. -/
def wrap32 (x : Int) : Int :=
  (x + 2 ^ 31) % 2 ^ 32 - 2 ^ 31

/-- The conversion `(int) lacunarity`: truncation toward zero. -/
def castInt [FloorRing F] (x : F) : Int :=
  if 0 ≤ x then ⌊x⌋ else ⌈x⌉

/-- Zero-initialisation loop of `generateNoise` (`noise.h:41-45`). -/
def zeroLoop {F : Type} [Field F] (width height : Int) (noise_data : Buffer F) : Option (Buffer F) :=
  forLoop width (fun i nd =>
    forLoop height (fun j nd => writeBuf nd (i + j * height) 0) nd) noise_data

/-- Exponent loop of `generateNoise` (`noise.h:49-53`); the state is the
array together with the running `frequency`. -/
def exponentLoop {F : Type} [Field F] (pw : F → F → F) (octaves : Int) (H lacunarity : F)
    (exponent_array : Buffer F) : Option (Buffer F × F) :=
  forLoop octaves (fun i st => do
    let ea ← writeBuf st.1 i (pw st.2 (-H))
    pure (ea, st.2 * lacunarity)) (exponent_array, 1)

/-- Index `p = (I % width) + (J % height) * height` (`noise.h:61`). -/
def sampleIndex (width height I J : Int) : Int :=
  I.tmod width + J.tmod height * height

/-- Coordinate update `I *= (int) lacunarity` (`noise.h:92-93`). -/
def nextCoord [FloorRing F] (lacunarity : F) (I : Int) : Int :=
  wrap32 (I * castInt lacunarity)

/-- Body of the octave loop (`noise.h:60-94`); the state is `(I, J, noise_data)`. -/
def octaveBody [FloorRing F] (perlin_data exponent_array : Buffer F) (width height : Int)
    (lacunarity offset : F) (i j : Int) (k : Int) (st : Int × Int × Buffer F) :
    Option (Int × Int × Buffer F) := do
  let p := sampleIndex width height st.1 st.2.1
  let perlinValue ← readBuf perlin_data p
  let n := i + j * height
  let e ← readBuf exponent_array k
  let noise := offset + perlinValue * e
  let old ← readBuf st.2.2 n
  let nd ← writeBuf st.2.2 n (old + noise)
  pure (nextCoord lacunarity st.1, nextCoord lacunarity st.2.1, nd)

/-- Octave loop of one pixel (`noise.h:57-94`). -/
def octaveLoop [FloorRing F] (perlin_data exponent_array : Buffer F) (width height octaves : Int)
    (lacunarity offset : F) (i j : Int) (noise_data : Buffer F) :
    Option (Int × Int × Buffer F) :=
  forLoop octaves (octaveBody perlin_data exponent_array width height lacunarity offset i j)
    (i, j, noise_data)

/-- Accumulation loop over all pixels (`noise.h:55-96`). -/
def pixelLoop [FloorRing F] (perlin_data exponent_array : Buffer F) (width height octaves : Int)
    (lacunarity offset : F) (noise_data : Buffer F) : Option (Buffer F) :=
  forLoop width (fun i nd =>
    forLoop height (fun j nd => do
      let st ← octaveLoop perlin_data exponent_array width height octaves lacunarity offset i j nd
      pure st.2.2) nd) noise_data

/-- The accumulator of `generateNoise` (`noise.h:39-96`) with the
configuration as parameters: from the noise field `perlin_data` to the
heightmap `noise_data`. -/
def accumulate [FloorRing F] (pw : F → F → F) (perlin_data : Buffer F) (width height octaves : Int)
    (H lacunarity offset : F) : Option (Buffer F) := do
  let noise_data ← zeroLoop width height (alloc F (width * height))
  let ea ← exponentLoop pw octaves H lacunarity (alloc F octaves)
  pixelLoop perlin_data ea.1 width height octaves lacunarity offset noise_data

/-- The pipeline of `generateNoise` (`noise.h:26-96`) with the configuration
as parameters. -/
def generateNoiseWith [FloorRing F] (pw : F → F → F) (gv : Int → Int → F × F)
    (width height period octaves : Int) (H lacunarity offset : F) : Option (Buffer F) := do
  let perlin_data ← perlin2D gv width height period
  accumulate pw perlin_data width height octaves H lacunarity offset

/-- The function `generateNoise` with the constants of the source:
`512 × 512`, period `128`, `H = 0.8`, `lacunarity = 2.0`, `offset = 0.1`,
four octaves. -/
def generateNoise [FloorRing F] (pw : F → F → F) (gv : Int → Int → F × F) : Option (Buffer F) :=
  generateNoiseWith pw gv 512 512 128 4 (8 / 10) 2 (1 / 10)

end Accumulator

/-- A stand-in for `std::pow` on rationals, exact for integer exponents and
rounding the exponent down otherwise. -/
def floorPow (x y : ℚ) : ℚ :=
  x ^ ⌊y⌋

/-- Largest squared length of the four corner-to-point vectors
`a = (dx, -dy)`, `b = (dx - 1, -dy)`, `c = (dx, 1 - dy)`, `d = (dx - 1, 1 - dy)`. -/
def maxCornerSq {F : Type} [LinearOrderedField F] (dx dy : F) : F :=
  max (max (dx ^ 2 + (-dy) ^ 2) ((dx - 1) ^ 2 + (-dy) ^ 2))
    (max (dx ^ 2 + (1 - dy) ^ 2) ((dx - 1) ^ 2 + (1 - dy) ^ 2))

/-! ## Facts about `perlin2D` -/

section PerlinFacts
variable {F : Type} [LinearOrderedField F]

theorem left_eq_ediv {period i : Int} (hp : 0 < period) (hi : 0 ≤ i) :
    left period i = i / period * period := by
  unfold left
  rw [Int.tdiv_eq_ediv hi hp.le]

theorem left_le {period i : Int} (hp : 0 < period) (hi : 0 ≤ i) : left period i ≤ i := by
  rw [left_eq_ediv hp hi]
  exact Int.ediv_mul_le i hp.ne'

theorem lt_left_add {period i : Int} (hp : 0 < period) (hi : 0 ≤ i) :
    i < left period i + period := by
  rw [left_eq_ediv hp hi]
  have := Int.lt_ediv_add_one_mul_self i hp
  linarith

theorem left_nonneg {period i : Int} (hp : 0 < period) (hi : 0 ≤ i) : 0 ≤ left period i := by
  rw [left_eq_ediv hp hi]
  exact Int.mul_nonneg (Int.ediv_nonneg hi hp.le) hp.le

theorem dvd_left (period i : Int) : period ∣ left period i :=
  Dvd.intro_left _ rfl

theorem left_of_dvd {period i : Int} (h : period ∣ i) : left period i = i := by
  unfold left
  exact Int.tdiv_mul_cancel h

theorem top_eq_left (period j : Int) : top period j = left period j := rfl

theorem bottom_eq_right (height period j : Int) : bottom height period j = right height period j := rfl

theorem dy_eq_dx (period j : Int) : dy F period j = dx F period j := rfl

theorem dx_eq_div (period i : Int) :
    dx F period i = ((i - left period i : Int) : F) / (period : F) := by
  unfold dx frequency
  rw [mul_one_div]

theorem dx_nonneg {period i : Int} (hp : 0 < period) (hi : 0 ≤ i) : 0 ≤ dx F period i := by
  rw [dx_eq_div]
  have h1 : (0 : F) ≤ ((i - left period i : Int) : F) := by
    exact_mod_cast sub_nonneg.mpr (left_le hp hi)
  have h2 : (0 : F) < (period : F) := by exact_mod_cast hp
  positivity

theorem dx_lt_one {period i : Int} (hp : 0 < period) (hi : 0 ≤ i) : dx F period i < 1 := by
  rw [dx_eq_div]
  have h2 : (0 : F) < (period : F) := by exact_mod_cast hp
  rw [div_lt_one h2]
  have := lt_left_add hp hi
  exact_mod_cast (by linarith : i - left period i < period)

theorem dx_of_dvd {period i : Int} (h : period ∣ i) : dx F period i = 0 := by
  unfold dx
  rw [left_of_dvd h]
  simp

theorem cellFormula_zero_zero (tl tr bl br : F × F) : cellFormula tl tr bl br 0 0 = 0 := by
  simp [cellFormula, lerp, fade, dot]

theorem perlinNoise_total (g : Int → Int → F × F) (width height period i j : Int) :
    perlinNoise (fun x y => some (g x y)) width height period i j
      = some (cellFormula (g (left period i) (top period j)) (g (right width period i) (top period j))
          (g (left period i) (bottom height period j))
          (g (right width period i) (bottom height period j)) (dx F period i) (dy F period j)) := by
  simp [perlinNoise]

theorem perlinNoise_eq_some {sample : Int → Int → Option (F × F)} {width height period i j : Int}
    {v : F} (h : perlinNoise sample width height period i j = some v) :
    ∃ tl tr bl br, sample (left period i) (top period j) = some tl ∧
      sample (right width period i) (top period j) = some tr ∧
      sample (left period i) (bottom height period j) = some bl ∧
      sample (right width period i) (bottom height period j) = some br ∧
      v = cellFormula tl tr bl br (dx F period i) (dy F period j) := by
  simp only [perlinNoise, bind, Option.bind_eq_some, pure, Option.some.injEq] at h
  obtain ⟨tl, h1, tr, h2, bl, h3, br, h4, h5⟩ := h
  exact ⟨tl, tr, bl, br, h1, h2, h3, h4, h5.symm⟩


theorem floor_div_eq_ediv (i : Int) {period : Int} (hp : 0 < period) :
    ⌊(i : ℚ) / (period : ℚ)⌋ = i / period := by
  have h2 : (0 : ℚ) < (period : ℚ) := by exact_mod_cast hp
  rw [Int.floor_eq_iff]
  constructor
  · rw [le_div_iff₀ h2]
    exact_mod_cast Int.ediv_mul_le i hp.ne'
  · rw [div_lt_iff₀ h2]
    have := Int.lt_ediv_add_one_mul_self i hp
    exact_mod_cast this

theorem fade_zero : fade (0 : F) = 0 := by simp [fade]

theorem fade_one : fade (1 : F) = 1 := by norm_num [fade]

theorem fade_sub (a b : F) :
    fade b - fade a = 30 * (b - a) *
      ((a * (1 - a) + (1 - 2 * a) * (b - a) / 2 - (b - a) ^ 2 / 3) ^ 2
        + ((1 - 2 * a) * (b - a) - (b - a) ^ 2) ^ 2 / 12 + ((b - a) ^ 2) ^ 2 / 180) := by
  unfold fade
  ring

theorem fade_mono {a b : F} (h : a ≤ b) : fade a ≤ fade b := by
  have hd : 0 ≤ b - a := sub_nonneg.mpr h
  rw [← sub_nonneg, fade_sub]
  positivity

theorem fade_nonneg {t : F} (h : 0 ≤ t) : 0 ≤ fade t := by
  have := fade_mono h
  rwa [fade_zero] at this

theorem fade_le_one {t : F} (h : t ≤ 1) : fade t ≤ 1 := by
  have := fade_mono h
  rwa [fade_one] at this

theorem fade_hasDerivAt (t : ℝ) : HasDerivAt (fade : ℝ → ℝ) (30 * t ^ 2 * (t - 1) ^ 2) t := by
  have h5 := (hasDerivAt_pow 5 t).const_mul 6
  have h4 := (hasDerivAt_pow 4 t).const_mul 15
  have h3 := (hasDerivAt_pow 3 t).const_mul 10
  have h := (h5.sub h4).add h3
  have e1 : (fade : ℝ → ℝ) = fun x => 6 * x ^ 5 - 15 * x ^ 4 + 10 * x ^ 3 := by
    funext x
    unfold fade
    ring
  rw [e1]
  convert h using 1
  norm_num
  ring

theorem lerp_sq_le {x y t M : F} (h0 : 0 ≤ t) (h1 : t ≤ 1) (hx : x ^ 2 ≤ M) (hy : y ^ 2 ≤ M) :
    (lerp x y t) ^ 2 ≤ M := by
  have e : (lerp x y t) ^ 2 = (1 - t) * x ^ 2 + t * y ^ 2 - t * (1 - t) * (x - y) ^ 2 := by
    unfold lerp
    ring
  have h2 : 0 ≤ 1 - t := sub_nonneg.mpr h1
  have h3 : 0 ≤ t * (1 - t) * (x - y) ^ 2 := by positivity
  have h4 : (1 - t) * x ^ 2 ≤ (1 - t) * M := mul_le_mul_of_nonneg_left hx h2
  have h5 : t * y ^ 2 ≤ t * M := mul_le_mul_of_nonneg_left hy h0
  rw [e]
  linarith

theorem dot_sq_le (a g : F × F) (hg : g.1 ^ 2 + g.2 ^ 2 = 1) :
    (dot a g) ^ 2 ≤ a.1 ^ 2 + a.2 ^ 2 := by
  have e : a.1 ^ 2 + a.2 ^ 2 = (dot a g) ^ 2 + (a.1 * g.2 - a.2 * g.1) ^ 2 := by
    have : a.1 ^ 2 + a.2 ^ 2 = (a.1 ^ 2 + a.2 ^ 2) * (g.1 ^ 2 + g.2 ^ 2) := by rw [hg, mul_one]
    rw [this]
    unfold dot
    ring
  rw [e]
  have := sq_nonneg (a.1 * g.2 - a.2 * g.1)
  linarith

theorem cellFormula_sq_le (tl tr bl br : F × F) {dx dy : F}
    (htl : tl.1 ^ 2 + tl.2 ^ 2 = 1) (htr : tr.1 ^ 2 + tr.2 ^ 2 = 1)
    (hbl : bl.1 ^ 2 + bl.2 ^ 2 = 1) (hbr : br.1 ^ 2 + br.2 ^ 2 = 1)
    (hx0 : 0 ≤ dx) (hx1 : dx ≤ 1) (hy0 : 0 ≤ dy) (hy1 : dy ≤ 1) :
    (cellFormula tl tr bl br dx dy) ^ 2 ≤ maxCornerSq dx dy := by
  unfold cellFormula
  simp only
  have hs := dot_sq_le (dx, -dy) tl htl
  have ht := dot_sq_le (dx - 1, -dy) tr htr
  have hu := dot_sq_le (dx, 1 - dy) bl hbl
  have hv := dot_sq_le (dx - 1, 1 - dy) br hbr
  simp only at hs ht hu hv
  have fx0 := fade_nonneg hx0
  have fx1 := fade_le_one hx1
  have fy0 := fade_nonneg hy0
  have fy1 := fade_le_one hy1
  apply lerp_sq_le fy0 fy1
  · apply lerp_sq_le fx0 fx1
    · exact hs.trans ((le_max_left _ _).trans (le_max_left _ _))
    · exact ht.trans ((le_max_right _ _).trans (le_max_left _ _))
  · apply lerp_sq_le fx0 fx1
    · exact hu.trans ((le_max_left _ _).trans (le_max_right _ _))
    · exact hv.trans ((le_max_right _ _).trans (le_max_right _ _))

theorem maxCornerSq_le_two {dx dy : F} (hx0 : 0 ≤ dx) (hx1 : dx ≤ 1) (hy0 : 0 ≤ dy)
    (hy1 : dy ≤ 1) : maxCornerSq dx dy ≤ 2 := by
  unfold maxCornerSq
  have a1 : dx ^ 2 ≤ 1 := by nlinarith
  have a2 : (dx - 1) ^ 2 ≤ 1 := by nlinarith
  have a3 : (-dy) ^ 2 ≤ 1 := by nlinarith
  have a4 : (1 - dy) ^ 2 ≤ 1 := by nlinarith
  refine max_le (max_le ?_ ?_) (max_le ?_ ?_) <;> linarith


theorem left_unique {period i c : Int} (hp : 0 < period) (hi : 0 ≤ i) (hc : period ∣ c)
    (h1 : c ≤ i) (h2 : i < c + period) : left period i = c := by
  obtain ⟨b, rfl⟩ := hc
  obtain ⟨a, ha⟩ := dvd_left period i
  have l1 := left_le hp hi
  have l2 := lt_left_add hp hi
  rw [ha] at l1 l2 ⊢
  have e1 : a < b + 1 := by
    by_contra hcon
    have : b + 1 ≤ a := not_lt.mp hcon
    have := mul_le_mul_of_nonneg_left this hp.le
    linarith
  have e2 : b < a + 1 := by
    by_contra hcon
    have : a + 1 ≤ b := not_lt.mp hcon
    have := mul_le_mul_of_nonneg_left this hp.le
    linarith
  have : a = b := by omega
  rw [this]

theorem right_of_last {width period i : Int} (hp : 0 < period) (hw : 0 < width)
    (hd : period ∣ width) (h1 : width - period ≤ i) (h2 : i < width) :
    left period i = width - period ∧ right width period i = 0 := by
  have hpw : period ≤ width := Int.le_of_dvd hw hd
  have hi : 0 ≤ i := by linarith
  have hl : left period i = width - period :=
    left_unique hp hi (Int.dvd_sub hd (dvd_refl _)) h1 (by linarith)
  refine ⟨hl, ?_⟩
  unfold right
  rw [hl]
  simp

theorem dvd_right {width period : Int} (i : Int) (hd : period ∣ width) :
    period ∣ right width period i := by
  unfold right
  rw [Int.tmod_def]
  exact Int.dvd_sub (Int.dvd_add (dvd_left _ _) (dvd_refl _)) (Dvd.dvd.mul_right hd _)

theorem right_nonneg {width period i : Int} (hp : 0 < period) (hi : 0 ≤ i) (hw : 0 < width) :
    0 ≤ right width period i ∧ right width period i < width := by
  unfold right
  have h0 : 0 ≤ left period i + period := by
    have := left_nonneg hp hi
    linarith
  rw [Int.tmod_eq_emod h0 hw.le]
  exact ⟨Int.emod_nonneg _ hw.ne', Int.emod_lt_of_pos _ hw⟩

theorem cellFormula_one_left (tl tr bl br tr' br' : F × F) (y : F) :
    cellFormula tl tr bl br 1 y = cellFormula tr tr' br br' 0 y := by
  simp [cellFormula, lerp, fade_zero, fade_one, dot]

theorem cellFormula_one_top (tl tr bl br bl' br' : F × F) (x : F) :
    cellFormula tl tr bl br x 1 = cellFormula bl br bl' br' x 0 := by
  simp [cellFormula, lerp, fade_zero, fade_one, dot]

theorem perlinNoise_congr {K : Type} [Field K] (sample sample' : Int → Int → Option (K × K))
    (width height period i j : Int)
    (h1 : sample (left period i) (top period j) = sample' (left period i) (top period j))
    (h2 : sample (right width period i) (top period j)
      = sample' (right width period i) (top period j))
    (h3 : sample (left period i) (bottom height period j)
      = sample' (left period i) (bottom height period j))
    (h4 : sample (right width period i) (bottom height period j)
      = sample' (right width period i) (bottom height period j)) :
    perlinNoise sample width height period i j = perlinNoise sample' width height period i j := by
  unfold perlinNoise
  rw [h1, h2, h3, h4]

end PerlinFacts


/-! ## Buffers and loops -/

section Loops

theorem forLoop_zero {σ : Type} (body : Int → σ → Option σ) (s : σ) :
    forLoop 0 body s = some s := by
  simp [forLoop]

theorem forLoop_succ {σ : Type} (N : Nat) (body : Int → σ → Option σ) (s : σ) :
    forLoop ((N + 1 : Nat) : Int) body s = (forLoop (N : Int) body s).bind (body (N : Int)) := by
  simp only [forLoop, Int.toNat_ofNat, List.range_succ, List.foldlM_append]
  rcases h : List.foldlM (fun st (i : Nat) => body (i : Int) st) s (List.range N) with _ | st
  · rfl
  · simp [h]

/-- Invariant rule for `forLoop`: an invariant that holds initially and is
re-established by every iteration (which must then be defined) holds of the
final state, and the loop is defined. -/
theorem forLoop_invariant {σ : Type} (P : Nat → σ → Prop) (N : Nat) (body : Int → σ → Option σ)
    (s : σ) (h0 : P 0 s)
    (hstep : ∀ k st, k < N → P k st → ∃ st', body (k : Int) st = some st' ∧ P (k + 1) st') :
    ∃ st', forLoop (N : Int) body s = some st' ∧ P N st' := by
  induction N with
  | zero => exact ⟨s, forLoop_zero body s, h0⟩
  | succ N ih =>
    obtain ⟨st, hst, hP⟩ := ih (fun k st hk hp => hstep k st (Nat.lt_succ_of_lt hk) hp)
    obtain ⟨st', hb, hP'⟩ := hstep N st (Nat.lt_succ_self N) hP
    exact ⟨st', by rw [forLoop_succ, hst]; exact hb, hP'⟩

variable {F : Type}

theorem readBuf_alloc (n m : Int) : readBuf (alloc F n) m = none := by
  unfold readBuf alloc
  split
  · rcases h : (List.replicate n.toNat (none : Option F))[m.toNat]? with _ | x
    · rfl
    · have := List.getElem?_mem h
      rw [List.mem_replicate] at this
      rw [this.2]
      rfl
  · rfl

theorem length_alloc (n : Int) : (alloc F n).length = n.toNat := by
  simp [alloc]

theorem writeBuf_spec (b : Buffer F) (k : Int) (v : F) (h0 : 0 ≤ k) (h1 : k < b.length) :
    ∃ b', writeBuf b k v = some b' ∧ b'.length = b.length ∧ readBuf b' k = some v ∧
      ∀ m, m ≠ k → readBuf b' m = readBuf b m := by
  have hk : k.toNat < b.length := by omega
  refine ⟨b.set k.toNat (some v), ?_, ?_, ?_, ?_⟩
  · simp [writeBuf, h0, hk]
  · simp
  · simp [readBuf, h0, hk]
  · intro m hm
    unfold readBuf
    split
    · have : k.toNat ≠ m.toNat := by omega
      rw [List.getElem?_set_ne this]
    · rfl

theorem writeBuf_eq_none (b : Buffer F) {k : Int} (v : F) (h : (b.length : Int) ≤ k) :
    writeBuf b k v = none := by
  unfold writeBuf
  rw [if_neg]
  omega

/-- Frame rule for the nested pixel loops of the source.  `R i j` describes
the buffer before pixel `(i, j)` is processed and `Q i j` after; the body at
`(i, j)` turns `R i j` into `Q i j`, keeps the length and preserves `R` and `Q`
of every other pixel.  Then the nested loop is defined and establishes `Q`
for every pixel. -/
theorem gridLoop_spec {σ : Type} (n m : Nat) (body : Int → Int → σ → Option σ)
    (I : σ → Prop) (R Q : Nat → Nat → σ → Prop)
    (hbody : ∀ (i j : Nat) (b : σ), i < n → j < m → I b → R i j b →
      ∃ b', body (i : Int) (j : Int) b = some b' ∧ I b' ∧ Q i j b' ∧
        ∀ i' j', i' < n → j' < m → (i', j') ≠ (i, j) →
          (R i' j' b → R i' j' b') ∧ (Q i' j' b → Q i' j' b'))
    (b0 : σ) (hI : I b0) (h0 : ∀ i j, i < n → j < m → R i j b0) :
    ∃ b', forLoop (n : Int) (fun i b => forLoop (m : Int) (fun j b => body i j b) b) b0 = some b' ∧
      I b' ∧ ∀ i j, i < n → j < m → Q i j b' := by
  have outer := forLoop_invariant
    (fun i b => I b ∧ (∀ i' j', i' < i → i' < n → j' < m → Q i' j' b) ∧
      (∀ i' j', i ≤ i' → i' < n → j' < m → R i' j' b))
    n (fun i b => forLoop (m : Int) (fun j b => body i j b) b) b0
    ⟨hI, fun i' j' h => absurd h (Nat.not_lt_zero _), fun i' j' _ hi hj => h0 i' j' hi hj⟩ ?_
  · obtain ⟨b', hb', hI', hQ, -⟩ := outer
    exact ⟨b', hb', hI', fun i j hi hj => hQ i j hi hi hj⟩
  · intro i b hi ⟨hIb, hQ, hR⟩
    have inner := forLoop_invariant
      (fun j b => I b ∧ (∀ i' j', (i' < i ∨ (i' = i ∧ j' < j)) → i' < n → j' < m → Q i' j' b) ∧
        (∀ i' j', (i < i' ∨ (i' = i ∧ j ≤ j')) → i' < n → j' < m → R i' j' b))
      m (fun j b => body (i : Int) j b) b ⟨hIb, ?_, ?_⟩ ?_
    · obtain ⟨b', hb', hI', hQ', hR'⟩ := inner
      refine ⟨b', hb', hI', ?_, ?_⟩
      · intro i' j' h1 h2 h3
        rcases Nat.lt_succ_iff_lt_or_eq.mp h1 with h | h
        · exact hQ' i' j' (Or.inl h) h2 h3
        · exact hQ' i' j' (Or.inr ⟨h, h3⟩) h2 h3
      · intro i' j' h1 h2 h3
        exact hR' i' j' (Or.inl h1) h2 h3
    · intro i' j' h h2 h3
      rcases h with h | ⟨_, h⟩
      · exact hQ i' j' h h2 h3
      · exact absurd h (Nat.not_lt_zero _)
    · intro i' j' h h2 h3
      rcases h with h | ⟨h, _⟩
      · exact hR i' j' h.le h2 h3
      · exact hR i' j' h.ge h2 h3
    · intro j b hj ⟨hIb, hQ, hR⟩
      obtain ⟨b', hb', hI', hQij, hframe⟩ := hbody i j b hi hj hIb (hR i j (Or.inr ⟨rfl, le_refl j⟩) hi hj)
      refine ⟨b', hb', hI', ?_, ?_⟩
      · intro i' j' h h2 h3
        by_cases e : (i', j') = (i, j)
        · cases e
          exact hQij
        · refine (hframe i' j' h2 h3 e).2 (hQ i' j' ?_ h2 h3)
          rcases h with h | ⟨h, h'⟩
          · exact Or.inl h
          · refine Or.inr ⟨h, ?_⟩
            rcases Nat.lt_succ_iff_lt_or_eq.mp h' with h'' | h''
            · exact h''
            · exact absurd (by rw [h, h'']) e
      · intro i' j' h h2 h3
        have e : (i', j') ≠ (i, j) := by
          intro e
          cases e
          rcases h with h | ⟨_, h⟩
          · exact absurd h (lt_irrefl _)
          · exact absurd h (Nat.not_succ_le_self _)
        refine (hframe i' j' h2 h3 e).1 (hR i' j' ?_ h2 h3)
        rcases h with h | ⟨h, h'⟩
        · exact Or.inl h
        · exact Or.inr ⟨h, Nat.le_of_succ_le h'⟩

/-- The flat index `i + j * n` is injective on `[0, n) × [0, n)`. -/
theorem index_injective {n i j i' j' : Nat} (hi : i < n) (hi' : i' < n)
    (h : (i : Int) + (j : Int) * (n : Int) = (i' : Int) + (j' : Int) * (n : Int)) :
    (i, j) = (i', j') := by
  have h' : i + j * n = i' + j' * n := by exact_mod_cast h
  have e1 : (i + j * n) % n = i := by rw [Nat.add_mul_mod_self_right, Nat.mod_eq_of_lt hi]
  have e2 : (i' + j' * n) % n = i' := by rw [Nat.add_mul_mod_self_right, Nat.mod_eq_of_lt hi']
  have hii : i = i' := by rw [← e1, ← e2, h']
  subst hii
  have hn : 0 < n := Nat.lt_of_le_of_lt (Nat.zero_le _) hi
  have : j * n = j' * n := by omega
  rw [Nat.eq_of_mul_eq_mul_right hn this]

/-- The flat index `i + j * n` of a pixel in `[0, n) × [0, n)` lies in `[0, n * n)`. -/
theorem index_lt {n i j : Nat} (hi : i < n) (hj : j < n) :
    (i : Int) + (j : Int) * (n : Int) < (n : Int) * (n : Int) := by
  have : i + j * n < n * n := by
    calc i + j * n < n + j * n := by omega
      _ = (j + 1) * n := by ring
      _ ≤ n * n := Nat.mul_le_mul_right n hj
  exact_mod_cast this

end Loops

/-! ## `perlin2D` on square fields, and outside them -/

section PerlinLoops

theorem writeBuf_length {F : Type} {b b' : Buffer F} {k : Int} {v : F} (h : writeBuf b k v = some b') :
    b'.length = b.length := by
  unfold writeBuf at h
  split at h
  · cases h
    simp
  · cases h

variable {F : Type} [Field F]

/-- Where `height ≤ width`, every index the source forms from a pixel in range
lies inside its allocation. -/
theorem index_in_bounds {width height i j : Int} (hhw : height ≤ width)
    (hi0 : 0 ≤ i) (hi1 : i < width) (hj0 : 0 ≤ j) (hj1 : j < height) :
    (0 ≤ i + j * height ∧ i + j * height < width * height) ∧
      (0 ≤ 2 * (i + j * height) ∧ 2 * (i + j * height) + 1 < width * height * 2) := by
  have h1 : j * height ≤ (height - 1) * height :=
    mul_le_mul_of_nonneg_right (by omega) (by omega)
  have h2 : (height - 1) * height ≤ (height - 1) * width :=
    mul_le_mul_of_nonneg_left hhw (by omega)
  have h3 : 0 ≤ j * height := mul_nonneg hj0 (by omega)
  have h4 : (height - 1) * width = width * height - width := by ring
  refine ⟨⟨by omega, by omega⟩, ⟨by omega, by omega⟩⟩

theorem forLoop_preserves {σ : Type} (P : σ → Prop) (body : Int → σ → Option σ)
    (hstep : ∀ k st st', P st → body k st = some st' → P st') (N : Nat) (s st : σ) (h0 : P s)
    (h : forLoop (N : Int) body s = some st) : P st := by
  induction N generalizing st with
  | zero =>
    rw [Nat.cast_zero, forLoop_zero] at h
    cases h
    exact h0
  | succ N ih =>
    rw [forLoop_succ] at h
    obtain ⟨st0, hs, hb⟩ := Option.bind_eq_some.mp h
    exact hstep _ _ _ (ih st0 hs) hb

theorem forLoop_eq_none {σ : Type} (body : Int → σ → Option σ) (s : σ) (k N : Nat) (hk : k < N)
    (hfail : ∀ st, forLoop (k : Int) body s = some st → body (k : Int) st = none) :
    forLoop (N : Int) body s = none := by
  induction N with
  | zero => exact absurd hk (Nat.not_lt_zero _)
  | succ N ih =>
    rw [forLoop_succ]
    rcases Nat.lt_succ_iff_lt_or_eq.mp hk with h | h
    · rw [ih h]
      rfl
    · subst h
      rcases hs : forLoop (k : Int) body s with _ | st
      · rfl
      · exact hfail st hs

/-- For `0 < width < height` the gradient fill loop leaves its allocation in
its first column, so `perlin2D` is undefined. -/
theorem perlin2D_eq_none (gv : Int → Int → F × F) {width height : Int} (period : Int)
    (hw : 0 < width) (hwh : width < height) : perlin2D gv width height period = none := by
  obtain ⟨w, rfl⟩ := Int.eq_ofNat_of_zero_le hw.le
  obtain ⟨h, rfl⟩ := Int.eq_ofNat_of_zero_le (hw.le.trans hwh.le)
  have hw' : 0 < w := by exact_mod_cast hw
  have hwh' : w < h := by exact_mod_cast hwh
  have hfill : fillGradients gv (w : Int) (h : Int) (alloc F ((w : Int) * (h : Int) * 2)) = none := by
    unfold fillGradients
    refine forLoop_eq_none _ _ 0 w hw' ?_
    intro st hst
    rw [Nat.cast_zero, forLoop_zero] at hst
    cases hst
    refine forLoop_eq_none _ _ (h - 1) h (by omega) ?_
    intro st hst
    have hlen : st.length = w * h * 2 := by
      have := forLoop_preserves (fun b : Buffer F => b.length = w * h * 2) _ ?_ (h - 1) _ st ?_ hst
      · exact this
      · intro k b b' hb hbody
        simp only [bind, Option.bind_eq_some] at hbody
        obtain ⟨b1, hb1, hb2⟩ := hbody
        rw [writeBuf_length hb2, writeBuf_length hb1]
        exact hb
      · beta_reduce
        rw [length_alloc]
        exact_mod_cast Int.toNat_ofNat (w * h * 2)
    have hfail : writeBuf st (2 * (((0 : Nat) : Int) + ((h - 1 : Nat) : Int) * (h : Int)))
        (gv ((0 : Nat) : Int) ((h - 1 : Nat) : Int)).1 = none := by
      apply writeBuf_eq_none
      rw [hlen]
      have e : ((h - 1 : Nat) : Int) = (h : Int) - 1 := by omega
      rw [e]
      push_cast
      have : (w : Int) * (h : Int) ≤ ((h : Int) - 1) * (h : Int) :=
        mul_le_mul_of_nonneg_right (by omega) (by omega)
      omega
    simp only [bind, Option.bind]
    rw [hfail]
  unfold perlin2D
  rw [hfill]
  rfl

theorem sample_gradient_congr {F : Type} {b b' : Buffer F} {height i j : Int}
    (h1 : readBuf b' (2 * (i + j * height)) = readBuf b (2 * (i + j * height)))
    (h2 : readBuf b' (2 * (i + j * height) + 1) = readBuf b (2 * (i + j * height) + 1)) :
    sample_gradient b' height i j = sample_gradient b height i j := by
  unfold sample_gradient
  rw [h1, h2]

theorem fillGradients_spec {K : Type} (gv : Int → Int → K × K) (n : Nat) :
    ∃ g, fillGradients gv (n : Int) (n : Int) (alloc K ((n : Int) * (n : Int) * 2)) = some g ∧
      ∀ i j : Nat, i < n → j < n → sample_gradient g (n : Int) (i : Int) (j : Int)
        = some (gv (i : Int) (j : Int)) := by
  unfold fillGradients
  have key := gridLoop_spec n n
    (fun i j g => do
      let g ← writeBuf g (2 * (i + j * (n : Int))) (gv i j).1
      writeBuf g (2 * (i + j * (n : Int)) + 1) (gv i j).2)
    (fun b : Buffer K => b.length = n * n * 2) (fun _ _ _ => True)
    (fun i j b => sample_gradient b (n : Int) (i : Int) (j : Int) = some (gv (i : Int) (j : Int)))
    ?_ (alloc K ((n : Int) * (n : Int) * 2)) ?_ (fun _ _ _ _ => trivial)
  · obtain ⟨g, hg, -, hq⟩ := key
    exact ⟨g, hg, hq⟩
  · intro i j b hi hj hlen _
    have hb := index_lt hi hj
    have h0 : (0 : Int) ≤ (i : Int) + (j : Int) * (n : Int) := by positivity
    obtain ⟨b1, hb1, hl1, hr1, hf1⟩ := writeBuf_spec b (2 * ((i : Int) + (j : Int) * (n : Int)))
      (gv i j).1 (by omega) (by rw [hlen]; push_cast; omega)
    obtain ⟨b2, hb2, hl2, hr2, hf2⟩ := writeBuf_spec b1
      (2 * ((i : Int) + (j : Int) * (n : Int)) + 1) (gv i j).2 (by omega)
      (by rw [hl1, hlen]; push_cast; omega)
    refine ⟨b2, by simp [hb1, hb2], by beta_reduce; rw [hl2, hl1, hlen], ?_, ?_⟩
    · beta_reduce
      unfold sample_gradient
      rw [hr2, hf2 _ (by omega), hr1]
      rfl
    · intro i' j' hi' _ hne
      have hidx : (i' : Int) + (j' : Int) * (n : Int) ≠ (i : Int) + (j : Int) * (n : Int) :=
        fun e => hne (index_injective hi' hi e)
      refine ⟨fun _ => trivial, fun hq => ?_⟩
      beta_reduce at hq ⊢
      rw [← hq]
      apply sample_gradient_congr
      · rw [hf2 _ (by omega), hf1 _ (by omega)]
      · rw [hf2 _ (by omega), hf1 _ (by omega)]
  · beta_reduce
    rw [length_alloc]
    exact_mod_cast Int.toNat_ofNat (n * n * 2)

end PerlinLoops

section PerlinSquare

variable {F : Type} [LinearOrderedField F]

/-- On a square `n × n` field with `period > 0`, `perlin2D` is defined and the
cell `i + j * n` of its result holds the noise value of pixel `(i, j)` computed
from the drawn gradients. -/
theorem perlin2D_spec (gv : Int → Int → F × F) (n : Nat) {period : Int} (hp : 0 < period) :
    ∃ pd, perlin2D gv (n : Int) (n : Int) period = some pd ∧ pd.length = n * n ∧
      ∀ i j : Nat, i < n → j < n →
        readBuf pd ((i : Int) + (j : Int) * (n : Int)) = some (cellFormula
          (gv (left period i) (top period j)) (gv (right n period i) (top period j))
          (gv (left period i) (bottom n period j)) (gv (right n period i) (bottom n period j))
          (dx F period i) (dy F period j)) := by
  obtain ⟨g, hg, hs⟩ := fillGradients_spec gv n
  have hs' : ∀ x y : Int, 0 ≤ x → x < n → 0 ≤ y → y < n →
      sample_gradient g (n : Int) x y = some (gv x y) := by
    intro x y hx0 hx1 hy0 hy1
    obtain ⟨x', rfl⟩ := Int.eq_ofNat_of_zero_le hx0
    obtain ⟨y', rfl⟩ := Int.eq_ofNat_of_zero_le hy0
    exact hs x' y' (by exact_mod_cast hx1) (by exact_mod_cast hy1)
  have key := gridLoop_spec n n
    (fun i j pd => do
      let noise ← perlinNoise (sample_gradient g (n : Int)) (n : Int) (n : Int) period i j
      writeBuf pd (i + j * (n : Int)) noise)
    (fun b : Buffer F => b.length = n * n) (fun _ _ _ => True)
    (fun i j b => readBuf b ((i : Int) + (j : Int) * (n : Int)) = some (cellFormula
          (gv (left period i) (top period j)) (gv (right n period i) (top period j))
          (gv (left period i) (bottom n period j)) (gv (right n period i) (bottom n period j))
          (dx F period i) (dy F period j)))
    ?_ (alloc F ((n : Int) * (n : Int))) ?_ (fun _ _ _ _ => trivial)
  · obtain ⟨pd, hpd, hl, hq⟩ := key
    refine ⟨pd, ?_, hl, hq⟩
    unfold perlin2D perlinLoop
    rw [hg]
    exact hpd
  · intro i j b hi hj hlen _
    have hn : (0 : Int) < n := by exact_mod_cast Nat.lt_of_le_of_lt (Nat.zero_le _) hi
    have hi0 : (0 : Int) ≤ i := Int.natCast_nonneg i
    have hj0 : (0 : Int) ≤ j := Int.natCast_nonneg j
    have hi1 : (i : Int) < n := by exact_mod_cast hi
    have hj1 : (j : Int) < n := by exact_mod_cast hj
    have l0 := left_nonneg hp hi0
    have l1 : left period i < n := lt_of_le_of_lt (left_le hp hi0) hi1
    have t0 : 0 ≤ top period j := left_nonneg hp hj0
    have t1 : top period j < n := lt_of_le_of_lt (left_le hp hj0) hj1
    obtain ⟨r0, r1⟩ := right_nonneg hp hi0 hn
    obtain ⟨b0, b1⟩ : 0 ≤ bottom n period j ∧ bottom n period j < n := right_nonneg hp hj0 hn
    have hnoise : perlinNoise (sample_gradient g (n : Int)) (n : Int) (n : Int) period i j
        = some (cellFormula
          (gv (left period i) (top period j)) (gv (right n period i) (top period j))
          (gv (left period i) (bottom n period j)) (gv (right n period i) (bottom n period j))
          (dx F period i) (dy F period j)) := by
      rw [← perlinNoise_total]
      exact perlinNoise_congr _ _ _ _ _ _ _ (hs' _ _ l0 l1 t0 t1) (hs' _ _ r0 r1 t0 t1)
        (hs' _ _ l0 l1 b0 b1) (hs' _ _ r0 r1 b0 b1)
    obtain ⟨b', hb', hl, hr, hf⟩ := writeBuf_spec b ((i : Int) + (j : Int) * (n : Int))
      (cellFormula
          (gv (left period i) (top period j)) (gv (right n period i) (top period j))
          (gv (left period i) (bottom n period j)) (gv (right n period i) (bottom n period j))
          (dx F period i) (dy F period j)) (by positivity)
      (by rw [hlen]; exact_mod_cast index_lt hi hj)
    refine ⟨b', by simp [hnoise, hb'], by beta_reduce; rw [hl, hlen], hr, ?_⟩
    intro i' j' hi' _ hne
    have hidx : (i' : Int) + (j' : Int) * (n : Int) ≠ (i : Int) + (j : Int) * (n : Int) :=
      fun e => hne (index_injective hi' hi e)
    beta_reduce
    rw [hf _ hidx]
    exact ⟨id, id⟩
  · beta_reduce
    rw [length_alloc]
    exact_mod_cast Int.toNat_ofNat (n * n)

end PerlinSquare

/-! ## Facts about the accumulator -/

section AccumulatorFacts

variable {F : Type} [LinearOrderedField F]

theorem wrap32_of_range {x : Int} (h0 : -2 ^ 31 ≤ x) (h1 : x < 2 ^ 31) : wrap32 x = x := by
  unfold wrap32
  omega

theorem exponentLoop_spec (pw : F → F → F) (octaves : Nat) (H lacunarity : F) :
    ∃ ea, exponentLoop pw (octaves : Int) H lacunarity (alloc F (octaves : Int))
        = some (ea, lacunarity ^ octaves) ∧
      ∀ k : Nat, k < octaves → readBuf ea (k : Int) = some (pw (lacunarity ^ k) (-H)) := by
  have key := forLoop_invariant
    (fun k (st : Buffer F × F) => st.2 = lacunarity ^ k ∧ st.1.length = octaves ∧
      ∀ k' : Nat, k' < k → readBuf st.1 (k' : Int) = some (pw (lacunarity ^ k') (-H)))
    octaves (fun i st => do
      let ea ← writeBuf st.1 i (pw st.2 (-H))
      pure (ea, st.2 * lacunarity)) (alloc F (octaves : Int), 1)
    ⟨by simp, by simp [length_alloc], fun k' h => absurd h (Nat.not_lt_zero _)⟩ ?_
  · obtain ⟨st, hst, h1, -, h3⟩ := key
    refine ⟨st.1, ?_, h3⟩
    unfold exponentLoop
    rw [hst, ← h1]
  · intro k st hk ⟨h1, h2, h3⟩
    obtain ⟨b', hb', hl, hr, hf⟩ := writeBuf_spec st.1 (k : Int) (pw st.2 (-H))
      (Int.natCast_nonneg k) (by rw [h2]; exact_mod_cast hk)
    refine ⟨(b', st.2 * lacunarity), by simp [hb'], ?_, ?_, ?_⟩
    · simp only
      rw [h1, pow_succ]
    · simp only
      rw [hl, h2]
    · intro k' hk'
      simp only
      rcases Nat.lt_succ_iff_lt_or_eq.mp hk' with h | h
      · rw [hf _ (by omega)]
        exact h3 k' h
      · rw [h, hr, h1]

theorem zeroLoop_spec (F : Type) [Field F] (n : Nat) :
    ∃ nd : Buffer F, zeroLoop (n : Int) (n : Int) (alloc F ((n : Int) * (n : Int))) = some nd ∧
      nd.length = n * n ∧
      ∀ i j : Nat, i < n → j < n → readBuf nd ((i : Int) + (j : Int) * (n : Int)) = some 0 := by
  unfold zeroLoop
  refine gridLoop_spec n n (fun i j nd => writeBuf nd (i + j * (n : Int)) (0 : F))
    (fun b => b.length = n * n) (fun _ _ _ => True)
    (fun i j b => readBuf b ((i : Int) + (j : Int) * (n : Int)) = some 0) ?_ _ ?_ ?_
  · intro i j b hi hj hlen _
    obtain ⟨b', hb', hl, hr, hf⟩ := writeBuf_spec b ((i : Int) + (j : Int) * (n : Int)) (0 : F)
      (by positivity)
      (by rw [hlen]; exact_mod_cast index_lt hi hj)
    refine ⟨b', hb', by beta_reduce; rw [hl, hlen], hr, ?_⟩
    intro i' j' hi' _ hne
    refine ⟨fun _ => trivial, fun hq => ?_⟩
    beta_reduce at hq ⊢
    rw [hf _ (fun e => hne (index_injective hi' hi e))]
    exact hq
  · beta_reduce
    rw [length_alloc]
    exact_mod_cast Int.toNat_ofNat (n * n)
  · intros
    trivial

theorem index_lt_int {n a b : Int} (ha : a < n) (hb0 : 0 ≤ b) (hb : b < n) :
    a + b * n < n * n := by
  nlinarith

theorem octaveLoop_spec [FloorRing F] (nf : Int → F) (pd ea nd : Buffer F) (n octaves : Nat)
    (lacunarity offset : F) (e : Nat → F) (i j : Nat) (hi : i < n) (hj : j < n)
    (hpd : ∀ m : Int, 0 ≤ m → m < (n : Int) * (n : Int) → readBuf pd m = some (nf m))
    (hea : ∀ k : Nat, k < octaves → readBuf ea (k : Int) = some (e k))
    (hcoord : ∀ k : Nat, 0 < k → k < octaves → ∀ x : Int, 0 ≤ x → x < n →
      0 ≤ x * castInt lacunarity ^ k ∧ x * castInt lacunarity ^ k < 2 ^ 31)
    (hlen : nd.length = n * n) (v0 : F)
    (hv0 : readBuf nd ((i : Int) + (j : Int) * (n : Int)) = some v0) :
    ∃ st, octaveLoop pd ea (n : Int) (n : Int) (octaves : Int) lacunarity offset i j nd = some st ∧
      st.2.2.length = n * n ∧
      readBuf st.2.2 ((i : Int) + (j : Int) * (n : Int)) = some (v0 + ∑ k in Finset.range octaves,
        (offset + nf ((((i : Int) * castInt lacunarity ^ k) % (n : Int) + (((j : Int) * castInt lacunarity ^ k) % (n : Int)) * (n : Int))) * e k)) ∧
      ∀ m, m ≠ (i : Int) + (j : Int) * (n : Int) → readBuf st.2.2 m = readBuf nd m := by
  have hnn : ∀ k : Nat, k < octaves → ∀ x : Int, 0 ≤ x → x < n →
      0 ≤ x * castInt lacunarity ^ k := by
    intro k hk x hx0 hx1
    rcases Nat.eq_zero_or_pos k with h | h
    · rw [h, pow_zero, mul_one]
      exact hx0
    · exact (hcoord k h hk x hx0 hx1).1
  have hn : (0 : Int) < n := by exact_mod_cast Nat.lt_of_le_of_lt (Nat.zero_le _) hi
  have key := forLoop_invariant
    (fun k (st : Int × Int × Buffer F) =>
      (k < octaves → st.1 = (i : Int) * castInt lacunarity ^ k ∧
        st.2.1 = (j : Int) * castInt lacunarity ^ k) ∧
      st.2.2.length = n * n ∧
      readBuf st.2.2 ((i : Int) + (j : Int) * (n : Int)) = some (v0 + ∑ k' in Finset.range k,
        (offset + nf ((((i : Int) * castInt lacunarity ^ k') % (n : Int) + (((j : Int) * castInt lacunarity ^ k') % (n : Int)) * (n : Int))) * e k')) ∧
      ∀ m, m ≠ (i : Int) + (j : Int) * (n : Int) → readBuf st.2.2 m = readBuf nd m)
    octaves (octaveBody pd ea (n : Int) (n : Int) lacunarity offset i j) ((i : Int), (j : Int), nd)
    ⟨fun _ => by simp, hlen, by simpa using hv0, fun _ _ => rfl⟩ ?_
  · obtain ⟨st, hst, -, h2, h3, h4⟩ := key
    exact ⟨st, hst, h2, h3, h4⟩
  · rintro k ⟨I, J, b⟩ hk ⟨h1, h2, h3, h4⟩
    obtain ⟨hI, hJ⟩ := h1 hk
    simp only at hI hJ h2 h3 h4
    have hI0 : 0 ≤ I := by rw [hI]; exact hnn k hk i (Int.natCast_nonneg i) (by exact_mod_cast hi)
    have hJ0 : 0 ≤ J := by rw [hJ]; exact hnn k hk j (Int.natCast_nonneg j) (by exact_mod_cast hj)
    have hp : sampleIndex (n : Int) (n : Int) I J = (((i : Int) * castInt lacunarity ^ k) % (n : Int) + (((j : Int) * castInt lacunarity ^ k) % (n : Int)) * (n : Int)) := by
      unfold sampleIndex
      rw [Int.tmod_eq_emod hI0 hn.le, Int.tmod_eq_emod hJ0 hn.le, hI, hJ]
    have hp0 : 0 ≤ (((i : Int) * castInt lacunarity ^ k) % (n : Int) + (((j : Int) * castInt lacunarity ^ k) % (n : Int)) * (n : Int)) := by
      have := Int.emod_nonneg ((i : Int) * castInt lacunarity ^ k) hn.ne'
      have := Int.emod_nonneg ((j : Int) * castInt lacunarity ^ k) hn.ne'
      positivity
    have hp1 : (((i : Int) * castInt lacunarity ^ k) % (n : Int) + (((j : Int) * castInt lacunarity ^ k) % (n : Int)) * (n : Int)) < (n : Int) * (n : Int) := by
      exact index_lt_int (Int.emod_lt_of_pos _ hn) (Int.emod_nonneg _ hn.ne')
        (Int.emod_lt_of_pos _ hn)
    obtain ⟨b', hb', hl, hr, hf⟩ := writeBuf_spec b ((i : Int) + (j : Int) * (n : Int))
      (v0 + ∑ k' in Finset.range k,
        (offset + nf ((((i : Int) * castInt lacunarity ^ k') % (n : Int) + (((j : Int) * castInt lacunarity ^ k') % (n : Int)) * (n : Int))) * e k')
        + (offset + nf ((((i : Int) * castInt lacunarity ^ k) % (n : Int) + (((j : Int) * castInt lacunarity ^ k) % (n : Int)) * (n : Int))) * e k))
      (by positivity) (by rw [h2]; exact_mod_cast index_lt hi hj)
    refine ⟨(nextCoord lacunarity I, nextCoord lacunarity J, b'), ?_, ?_, ?_, ?_, ?_⟩
    · simp [octaveBody, hp, hpd _ hp0 hp1, hea k hk, h3, hb']
    · intro hk'
      have c1 := hcoord (k + 1) (Nat.succ_pos k) hk' i (Int.natCast_nonneg i)
        (by exact_mod_cast hi)
      have c2 := hcoord (k + 1) (Nat.succ_pos k) hk' j (Int.natCast_nonneg j)
        (by exact_mod_cast hj)
      simp only [nextCoord, hI, hJ]
      rw [mul_assoc, ← pow_succ, mul_assoc, ← pow_succ,
        wrap32_of_range (by linarith [c1.1]) c1.2, wrap32_of_range (by linarith [c2.1]) c2.2]
      exact ⟨rfl, rfl⟩
    · simp only
      rw [hl, h2]
    · simp only
      rw [hr, Finset.sum_range_succ, add_assoc]
    · intro m hm
      simp only
      rw [hf m hm]
      exact h4 m hm

theorem pixelLoop_spec [FloorRing F] (nf : Int → F) (pd ea nd : Buffer F) (n octaves : Nat)
    (lacunarity offset : F) (e : Nat → F)
    (hpd : ∀ m : Int, 0 ≤ m → m < (n : Int) * (n : Int) → readBuf pd m = some (nf m))
    (hea : ∀ k : Nat, k < octaves → readBuf ea (k : Int) = some (e k))
    (hcoord : ∀ k : Nat, 0 < k → k < octaves → ∀ x : Int, 0 ≤ x → x < n →
      0 ≤ x * castInt lacunarity ^ k ∧ x * castInt lacunarity ^ k < 2 ^ 31)
    (hlen : nd.length = n * n)
    (h0 : ∀ i j : Nat, i < n → j < n → readBuf nd ((i : Int) + (j : Int) * (n : Int)) = some 0) :
    ∃ hm, pixelLoop pd ea (n : Int) (n : Int) (octaves : Int) lacunarity offset nd = some hm ∧
      hm.length = n * n ∧
      ∀ i j : Nat, i < n → j < n →
        readBuf hm ((i : Int) + (j : Int) * (n : Int)) = some (∑ k in Finset.range octaves,
          (offset + nf (((i : Int) * castInt lacunarity ^ k) % (n : Int) +
            (((j : Int) * castInt lacunarity ^ k) % (n : Int)) * (n : Int)) * e k)) := by
  unfold pixelLoop
  refine gridLoop_spec n n
    (fun i j nd => do
      let st ← octaveLoop pd ea (n : Int) (n : Int) (octaves : Int) lacunarity offset i j nd
      pure st.2.2)
    (fun b => b.length = n * n)
    (fun i j b => readBuf b ((i : Int) + (j : Int) * (n : Int)) = some 0)
    (fun i j b => readBuf b ((i : Int) + (j : Int) * (n : Int)) = some (∑ k in Finset.range octaves,
      (offset + nf (((i : Int) * castInt lacunarity ^ k) % (n : Int) +
        (((j : Int) * castInt lacunarity ^ k) % (n : Int)) * (n : Int)) * e k)))
    ?_ nd hlen h0
  intro i j b hi hj hlen hR
  obtain ⟨st, hst, hl, hr, hf⟩ := octaveLoop_spec nf pd ea b n octaves lacunarity offset e i j
    hi hj hpd hea hcoord hlen 0 hR
  refine ⟨st.2.2, by simp [hst], hl, by simpa using hr, ?_⟩
  intro i' j' hi' _ hne
  have hidx : (i' : Int) + (j' : Int) * (n : Int) ≠ (i : Int) + (j : Int) * (n : Int) :=
    fun e => hne (index_injective hi' hi e)
  beta_reduce
  rw [hf _ hidx]
  exact ⟨id, id⟩

/-- The accumulator on a square `n × n` field whose cells all hold a value: it
is defined, and the heightmap cell of pixel `(i, j)` holds the sum over the
octaves of `offset + noiseField[p_k] * exponent_array[k]`. -/
theorem accumulate_spec [FloorRing F] (pw : F → F → F) (nf : Int → F) (pd : Buffer F)
    (n octaves : Nat) (H lacunarity offset : F)
    (hpd : ∀ m : Int, 0 ≤ m → m < (n : Int) * (n : Int) → readBuf pd m = some (nf m))
    (hcoord : ∀ k : Nat, 0 < k → k < octaves → ∀ x : Int, 0 ≤ x → x < n →
      0 ≤ x * castInt lacunarity ^ k ∧ x * castInt lacunarity ^ k < 2 ^ 31) :
    ∃ hm, accumulate pw pd (n : Int) (n : Int) (octaves : Int) H lacunarity offset = some hm ∧
      hm.length = n * n ∧
      ∀ i j : Nat, i < n → j < n →
        readBuf hm ((i : Int) + (j : Int) * (n : Int)) = some (∑ k in Finset.range octaves,
          (offset + nf (((i : Int) * castInt lacunarity ^ k) % (n : Int) +
            (((j : Int) * castInt lacunarity ^ k) % (n : Int)) * (n : Int)) *
              pw (lacunarity ^ k) (-H))) := by
  obtain ⟨nd, hnd, hlen, h0⟩ := zeroLoop_spec F n
  obtain ⟨ea, hea, hread⟩ := exponentLoop_spec pw octaves H lacunarity
  obtain ⟨hm, hhm, hl, hr⟩ := pixelLoop_spec nf pd ea nd n octaves lacunarity offset
    (fun k => pw (lacunarity ^ k) (-H)) hpd hread hcoord hlen h0
  refine ⟨hm, ?_, hl, hr⟩
  unfold accumulate
  rw [hnd, hea]
  exact hhm

end AccumulatorFacts

/-! ## Running coordinates of the octave loop -/

section Coordinates

variable {F : Type} [LinearOrderedField F] [FloorRing F]

theorem castInt_of_one_le_lt_two {x : F} (h1 : 1 ≤ x) (h2 : x < 2) : castInt x = 1 := by
  unfold castInt
  rw [if_pos (by linarith), Int.floor_eq_iff]
  constructor
  · exact_mod_cast h1
  · norm_num
    linarith

theorem octaveBody_coords {pd ea : Buffer F} {width height : Int} {lacunarity offset : F}
    {i j k : Int} {st st' : Int × Int × Buffer F}
    (h : octaveBody pd ea width height lacunarity offset i j k st = some st') :
    st'.1 = nextCoord lacunarity st.1 ∧ st'.2.1 = nextCoord lacunarity st.2.1 := by
  simp only [octaveBody, bind, Option.bind_eq_some, pure, Option.some.injEq] at h
  obtain ⟨_, _, _, _, _, _, _, _, rfl⟩ := h
  exact ⟨rfl, rfl⟩

/-- Running coordinates of the octave loop: after `k` iterations the state
holds `I = nextCoord^[k] i` and `J = nextCoord^[k] j`. -/
theorem octaveLoop_coords (pd ea nd : Buffer F) (width height : Int) (lacunarity offset : F)
    (i j : Int) (k : Nat) (st : Int × Int × Buffer F)
    (h : octaveLoop pd ea width height (k : Int) lacunarity offset i j nd = some st) :
    st.1 = (nextCoord lacunarity)^[k] i ∧ st.2.1 = (nextCoord lacunarity)^[k] j := by
  unfold octaveLoop at h
  induction k generalizing st with
  | zero =>
    rw [Nat.cast_zero, forLoop_zero] at h
    cases h
    exact ⟨rfl, rfl⟩
  | succ k ih =>
    rw [forLoop_succ] at h
    obtain ⟨st0, h0, hb⟩ := Option.bind_eq_some.mp h
    obtain ⟨e1, e2⟩ := ih st0 h0
    obtain ⟨c1, c2⟩ := octaveBody_coords hb
    rw [Function.iterate_succ_apply', Function.iterate_succ_apply', ← e1, ← e2]
    exact ⟨c1, c2⟩

theorem nextCoord_iterate_of_one {lacunarity : F} (hL : castInt lacunarity = 1) {x : Int}
    (h0 : 0 ≤ x) (h1 : x < 2 ^ 31) (k : Nat) : (nextCoord lacunarity)^[k] x = x := by
  have hfix : nextCoord lacunarity x = x := by
    unfold nextCoord
    rw [hL, mul_one]
    exact wrap32_of_range (by linarith) h1
  exact Function.iterate_fixed hfix k

end Coordinates

/-! ## The source configuration -/

section SourceConfiguration

variable {F : Type} [LinearOrderedField F]

theorem castInt_two [FloorRing F] : castInt (2 : F) = 2 := by
  unfold castInt
  rw [if_pos (by norm_num)]
  exact Int.floor_ofNat 2

/-- Every cell of the noise field `perlin2D` returns on a square field holds a value. -/
theorem perlin2D_full (gv : Int → Int → F × F) (n : Nat) {period : Int} (hp : 0 < period) :
    ∃ pd, perlin2D gv (n : Int) (n : Int) period = some pd ∧
      ∀ m : Int, 0 ≤ m → m < (n : Int) * (n : Int) →
        readBuf pd m = some ((readBuf pd m).getD 0) := by
  obtain ⟨pd, hpd, -, hr⟩ := perlin2D_spec gv n hp
  refine ⟨pd, hpd, ?_⟩
  intro m hm0 hm1
  have hn : (0 : Int) < n := by
    by_contra h
    have : (n : Int) = 0 := by omega
    rw [this] at hm1
    omega
  obtain ⟨i, hi⟩ := Int.eq_ofNat_of_zero_le (Int.emod_nonneg m hn.ne')
  obtain ⟨j, hj⟩ := Int.eq_ofNat_of_zero_le (Int.ediv_nonneg hm0 hn.le)
  have hi1 : i < n := by
    have := Int.emod_lt_of_pos m hn
    omega
  have hj1 : j < n := by
    have : m / (n : Int) < n := Int.ediv_lt_of_lt_mul hn hm1
    omega
  have hm : m = (i : Int) + (j : Int) * (n : Int) := by
    rw [← hi, ← hj]
    exact (Int.emod_add_ediv' m n).symm
  rw [hm, hr i j hi1 hj1]
  rfl

/-- The source configuration (`512 × 512`, period `128`, four octaves,
`lacunarity = 2`, `offset = 0.1`): `generateNoise` is defined, and every
heightmap cell is the four-octave sum over the noise field `perlin2D` built. -/
theorem generateNoise_spec [FloorRing F] (pw : F → F → F) (gv : Int → Int → F × F) :
    ∃ pd hm, perlin2D gv 512 512 128 = some pd ∧ generateNoise pw gv = some hm ∧
      ∀ i j : Int, 0 ≤ i → i < 512 → 0 ≤ j → j < 512 →
        readBuf hm (i + j * 512) = some (∑ k in Finset.range 4,
          (1 / 10 + (readBuf pd ((i * 2 ^ k) % 512 + ((j * 2 ^ k) % 512) * 512)).getD 0 *
            pw (2 ^ k) (-(8 / 10)))) := by
  obtain ⟨pd, hpd, hfull⟩ := perlin2D_full gv 512 (by norm_num : (0 : Int) < 128)
  have hcoord : ∀ k : Nat, 0 < k → k < 4 → ∀ x : Int, 0 ≤ x → x < (512 : Nat) →
      0 ≤ x * castInt (2 : F) ^ k ∧ x * castInt (2 : F) ^ k < 2 ^ 31 := by
    intro k _ hk x hx0 hx1
    rw [castInt_two]
    interval_cases k <;> omega
  obtain ⟨hm, hhm, -, hr⟩ := accumulate_spec pw (fun m => (readBuf pd m).getD 0) pd 512 4
    (8 / 10) 2 (1 / 10) hfull hcoord
  simp only [Int.Nat.cast_ofNat_Int] at hpd hhm hr
  refine ⟨pd, hm, hpd, ?_, ?_⟩
  · unfold generateNoise generateNoiseWith
    rw [hpd, Option.bind_eq_bind, Option.some_bind]
    exact hhm
  · intro i j hi0 hi1 hj0 hj1
    obtain ⟨i', rfl⟩ := Int.eq_ofNat_of_zero_le hi0
    obtain ⟨j', rfl⟩ := Int.eq_ofNat_of_zero_le hj0
    have := hr i' j' (by exact_mod_cast hi1) (by exact_mod_cast hj1)
    rw [castInt_two] at this
    exact_mod_cast this

end SourceConfiguration

/-! ## Claims about `perlin2D` -/

section PerlinClaims

/-- Claim C1: at a lattice-aligned pixel (`i` and `j` both multiples of
`period`) the value `perlin2D` computes,
`lerp (lerp s t (fade dx)) (lerp u v (fade dx)) (fade dy)`, is exactly `0`:
for every total gradient grid the pixel value is `0`, and for every gradient
buffer any value the pixel computation produces is `0`. -/
theorem perlinNoise_lattice_zero {F : Type} [LinearOrderedField F] (g : Int → Int → F × F)
    (gradients : Buffer F) (width height period i j : Int)
    (hpi : period ∣ i) (hpj : period ∣ j) :
    perlinNoise (fun x y => some (g x y)) width height period i j = some 0 ∧
      ∀ v, perlinNoise (sample_gradient gradients height) width height period i j = some v →
        v = 0 := by
  have hx : dx F period i = 0 := dx_of_dvd hpi
  have hy : dy F period j = 0 := dx_of_dvd hpj
  constructor
  · rw [perlinNoise_total, hx, hy, cellFormula_zero_zero]
  · intro v hv
    obtain ⟨tl, tr, bl, br, -, -, -, -, e⟩ := perlinNoise_eq_some hv
    rw [e, hx, hy, cellFormula_zero_zero]

/-- Witness of C1: the `4 × 4` grid of period `2` at pixel `(2, 0)`. -/
theorem perlinNoise_lattice_zero_witness :
    ((2 : Int) ∣ 2 ∧ (2 : Int) ∣ 0) ∧
      perlinNoise (fun _ _ => some ((3 / 5 : ℚ), (4 / 5 : ℚ))) 4 4 2 2 0 = some 0 :=
  ⟨by decide, (perlinNoise_lattice_zero (fun _ _ => ((3 / 5 : ℚ), (4 / 5 : ℚ))) [] 4 4 2 2 0
    (by decide) (by decide)).1⟩

/-- Claim C5: over exact arithmetic `fade 0 = 0`, `fade 1 = 1`, `fade` is
monotone non-decreasing on `[0, 1]`, and its derivative vanishes at `0` and
at `1`. -/
theorem fade_properties (F : Type) [LinearOrderedField F] :
    (fade (0 : F) = 0 ∧ fade (1 : F) = 1) ∧
      (∀ a b : F, 0 ≤ a → a ≤ b → b ≤ 1 → fade a ≤ fade b) ∧
      HasDerivAt (fade : ℝ → ℝ) 0 0 ∧ HasDerivAt (fade : ℝ → ℝ) 0 1 := by
  refine ⟨⟨fade_zero, fade_one⟩, fun a b _ hab _ => fade_mono hab, ?_, ?_⟩
  · have h := fade_hasDerivAt 0
    norm_num at h
    exact h
  · have h := fade_hasDerivAt 1
    norm_num at h
    exact h

/-- Witness of C5: `fade (1/4) ≤ fade (1/2)` on the rationals. -/
theorem fade_properties_witness :
    ((0 : ℚ) ≤ 1 / 4 ∧ (1 / 4 : ℚ) ≤ 1 / 2 ∧ (1 / 2 : ℚ) ≤ 1) ∧
      fade (1 / 4 : ℚ) ≤ fade (1 / 2 : ℚ) :=
  ⟨by norm_num, (fade_properties ℚ).2.1 (1 / 4) (1 / 2) (by norm_num) (by norm_num) (by norm_num)⟩

/-- Claim C10: for `period > 0` and a pixel with `i, j ≥ 0` the cell corner is
`left = ⌊i / period⌋ * period`, `top = ⌊j / period⌋ * period`, with
`left ≤ i < left + period` and `top ≤ j < top + period`, and the local
coordinates `dx = (i - left) / period`, `dy = (j - top) / period` lie in
`[0, 1)`. -/
theorem local_coords_range (F : Type) [LinearOrderedField F] (period i j : Int)
    (hp : 0 < period) (hi : 0 ≤ i) (hj : 0 ≤ j) :
    (left period i = ⌊(i : ℚ) / (period : ℚ)⌋ * period ∧
        top period j = ⌊(j : ℚ) / (period : ℚ)⌋ * period) ∧
      (left period i ≤ i ∧ i < left period i + period) ∧
      (top period j ≤ j ∧ j < top period j + period) ∧
      (dx F period i = ((i - left period i : Int) : F) / (period : F) ∧
        dy F period j = ((j - top period j : Int) : F) / (period : F)) ∧
      (0 ≤ dx F period i ∧ dx F period i < 1) ∧ (0 ≤ dy F period j ∧ dy F period j < 1) := by
  refine ⟨⟨?_, ?_⟩, ⟨left_le hp hi, lt_left_add hp hi⟩, ⟨left_le hp hj, lt_left_add hp hj⟩,
    ⟨dx_eq_div period i, dx_eq_div period j⟩, ⟨dx_nonneg hp hi, dx_lt_one hp hi⟩,
    ⟨dx_nonneg hp hj, dx_lt_one hp hj⟩⟩
  · rw [floor_div_eq_ediv i hp]
    exact left_eq_ediv hp hi
  · rw [floor_div_eq_ediv j hp, top_eq_left]
    exact left_eq_ediv hp hj

/-- Witness of C10: period `4`, pixel `(6, 3)`. -/
theorem local_coords_range_witness :
    ((0 : Int) < 4 ∧ (0 : Int) ≤ 6 ∧ (0 : Int) ≤ 3) ∧
      (0 ≤ dx ℚ 4 6 ∧ dx ℚ 4 6 < 1) ∧ (0 ≤ dy ℚ 4 3 ∧ dy ℚ 4 3 < 1) :=
  ⟨by decide, (local_coords_range ℚ 4 6 3 (by decide) (by decide) (by decide)).2.2.2.2⟩

/-- Claim C6 (seamless tiling): if `period > 0` divides `width`, every pixel of
the last cell column (`width - period ≤ i < width`) has `left = width - period`
and its right corner is column `0`, so the cell formula at `dx = 1` is the noise
value of pixel `(0, j)` of the same row; symmetrically, if `period` divides
`height`, the bottom corner of the last cell row is row `0` and the formula at
`dy = 1` is the noise value of pixel `(i, 0)`. -/
theorem perlinNoise_tiles {F : Type} [LinearOrderedField F] (g : Int → Int → F × F)
    (width height period i j : Int) (hw : 0 < width) (hh : 0 < height) (hp : 0 < period) :
    (period ∣ width → width - period ≤ i → i < width →
      left period i = width - period ∧ right width period i = 0 ∧
      perlinNoise (fun x y => some (g x y)) width height period 0 j =
        some (cellFormula (g (left period i) (top period j)) (g (right width period i) (top period j))
          (g (left period i) (bottom height period j))
          (g (right width period i) (bottom height period j)) 1 (dy F period j))) ∧
    (period ∣ height → height - period ≤ j → j < height →
      top period j = height - period ∧ bottom height period j = 0 ∧
      perlinNoise (fun x y => some (g x y)) width height period i 0 =
        some (cellFormula (g (left period i) (top period j)) (g (right width period i) (top period j))
          (g (left period i) (bottom height period j))
          (g (right width period i) (bottom height period j)) (dx F period i) 1)) := by
  have h0 : left period 0 = 0 := left_of_dvd (dvd_zero period)
  have hd0 : dx F period 0 = 0 := dx_of_dvd (dvd_zero period)
  constructor
  · intro hd h1 h2
    obtain ⟨hl, hr⟩ := right_of_last hp hw hd h1 h2
    refine ⟨hl, hr, ?_⟩
    rw [perlinNoise_total, hr, h0, hd0]
    exact congrArg some (cellFormula_one_left _ _ _ _ _ _ _).symm
  · intro hd h1 h2
    obtain ⟨hl, hr⟩ := right_of_last hp hh hd h1 h2
    rw [← top_eq_left] at hl
    rw [← bottom_eq_right] at hr
    refine ⟨hl, hr, ?_⟩
    rw [perlinNoise_total, hr, top_eq_left period 0, h0, dy_eq_dx, hd0]
    exact congrArg some (cellFormula_one_top _ _ _ _ _ _ _).symm

/-- Witness of C6: an `8 × 8` field of period `4`, pixel `(6, 5)` in the last
cell column and last cell row. -/
theorem perlinNoise_tiles_witness :
    ((0 : Int) < 8 ∧ (0 : Int) < 4 ∧ (4 : Int) ∣ 8 ∧ (8 : Int) - 4 ≤ 6 ∧ (6 : Int) < 8) ∧
      left 4 6 = 8 - 4 ∧ right 8 4 6 = 0 :=
  ⟨by decide,
    ((perlinNoise_tiles (fun x y => ((x : ℚ), (y : ℚ))) 8 8 4 6 5 (by decide) (by decide)
      (by decide)).1 (by decide) (by decide) (by decide)).1,
    ((perlinNoise_tiles (fun x y => ((x : ℚ), (y : ℚ))) 8 8 4 6 5 (by decide) (by decide)
      (by decide)).1 (by decide) (by decide) (by decide)).2.1⟩

/-- Claim C7: for a gradient grid of unit vectors the value `perlin2D` computes
at a pixel in range is bounded in magnitude by the largest length of the
corner-to-point vectors `a`, `b`, `c`, `d`, hence by `√2`. -/
theorem perlinNoise_bounded (g : Int → Int → ℝ × ℝ) (width height period i j : Int)
    (hp : 0 < period) (hi : 0 ≤ i) (hj : 0 ≤ j)
    (hunit : ∀ x y, (g x y).1 ^ 2 + (g x y).2 ^ 2 = 1) :
    ∃ v, perlinNoise (fun x y => some (g x y)) width height period i j = some v ∧
      |v| ≤ max (max (√((dx ℝ period i) ^ 2 + (-dy ℝ period j) ^ 2))
                    (√((dx ℝ period i - 1) ^ 2 + (-dy ℝ period j) ^ 2)))
                (max (√((dx ℝ period i) ^ 2 + (1 - dy ℝ period j) ^ 2))
                    (√((dx ℝ period i - 1) ^ 2 + (1 - dy ℝ period j) ^ 2))) ∧
      |v| ≤ √2 := by
  refine ⟨_, perlinNoise_total g width height period i j, ?_, ?_⟩
  · have hx0 : 0 ≤ dx ℝ period i := dx_nonneg hp hi
    have hx1 : dx ℝ period i ≤ 1 := (dx_lt_one hp hi).le
    have hy0 : 0 ≤ dy ℝ period j := dx_nonneg hp hj
    have hy1 : dy ℝ period j ≤ 1 := (dx_lt_one hp hj).le
    have h := cellFormula_sq_le (g (left period i) (top period j))
      (g (right width period i) (top period j)) (g (left period i) (bottom height period j))
      (g (right width period i) (bottom height period j))
      (hunit _ _) (hunit _ _) (hunit _ _) (hunit _ _) hx0 hx1 hy0 hy1
    have hm : Monotone Real.sqrt := fun _ _ hab => Real.sqrt_le_sqrt hab
    have h2 := Real.abs_le_sqrt h
    unfold maxCornerSq at h2
    rw [hm.map_max, hm.map_max, hm.map_max] at h2
    exact h2
  · have hx0 : 0 ≤ dx ℝ period i := dx_nonneg hp hi
    have hx1 : dx ℝ period i ≤ 1 := (dx_lt_one hp hi).le
    have hy0 : 0 ≤ dy ℝ period j := dx_nonneg hp hj
    have hy1 : dy ℝ period j ≤ 1 := (dx_lt_one hp hj).le
    have h := cellFormula_sq_le (g (left period i) (top period j))
      (g (right width period i) (top period j)) (g (left period i) (bottom height period j))
      (g (right width period i) (bottom height period j))
      (hunit _ _) (hunit _ _) (hunit _ _) (hunit _ _) hx0 hx1 hy0 hy1
    exact Real.abs_le_sqrt (h.trans (maxCornerSq_le_two hx0 hx1 hy0 hy1))

/-- Witness of C7: the grid with gradient `(3/5, 4/5)` everywhere. -/
theorem perlinNoise_bounded_witness :
    ((0 : Int) < 4 ∧ (0 : Int) ≤ 2 ∧ ∀ x y : Int,
        (((fun _ _ => (3 / 5, 4 / 5)) : Int → Int → ℝ × ℝ) x y).1 ^ 2 +
          (((fun _ _ => (3 / 5, 4 / 5)) : Int → Int → ℝ × ℝ) x y).2 ^ 2 = 1) ∧
      ∃ v, perlinNoise (fun _ _ => some ((3 / 5 : ℝ), (4 / 5 : ℝ))) 4 4 4 2 2 = some v ∧
        |v| ≤ √2 :=
  ⟨⟨by decide, by decide, fun _ _ => by norm_num⟩,
    (perlinNoise_bounded (fun _ _ => (3 / 5, 4 / 5)) 4 4 4 2 2 (by decide) (by decide) (by decide)
      (fun _ _ => by norm_num)).imp (fun _ h => ⟨h.1, h.2.2⟩)⟩

/-- Counterexample to C9 as stated: with `width = 8` and `period = 3` the pixel
`(7, 1)` has right corner `(7 / 3 * 3 + 3) % 8 = 1`, which is not a multiple of
`3`, and the gradient stored at `(1, 0)` is read: changing only that entry
changes the pixel value. -/
theorem corners_off_lattice :
    right 8 3 7 = 1 ∧ ¬ ((3 : Int) ∣ right 8 3 7) ∧
      perlinNoise (fun _ _ => some ((1 : ℚ), (0 : ℚ))) 8 8 3 7 1 ≠
        perlinNoise (fun x y => if x = 1 ∧ y = 0 then some ((0 : ℚ), (1 : ℚ)) else some (1, 0))
          8 8 3 7 1 := by
  decide!

/-- Claim C9, amended: `left` and `top` are always multiples of `period`; when
`period` divides `width` and `height`, `right` and `bottom` are too, all four
corners lie inside the grid, and the pixel value depends on the gradient grid
only through entries whose coordinates are both multiples of `period`. -/
theorem corners_on_lattice (F : Type) [Field F] (width height period i j : Int)
    (hw : 0 < width) (hh : 0 < height) (hp : 0 < period) (hi : 0 ≤ i) (hj : 0 ≤ j)
    (hdw : period ∣ width) (hdh : period ∣ height) :
    (period ∣ left period i ∧ period ∣ right width period i ∧
        period ∣ top period j ∧ period ∣ bottom height period j) ∧
      (0 ≤ right width period i ∧ right width period i < width ∧
        0 ≤ bottom height period j ∧ bottom height period j < height) ∧
      ∀ sample sample' : Int → Int → Option (F × F),
        (∀ x y, period ∣ x → period ∣ y → sample x y = sample' x y) →
        perlinNoise sample width height period i j
          = perlinNoise sample' width height period i j := by
  have d1 := dvd_left period i
  have d2 := dvd_right i hdw
  have d3 : period ∣ top period j := dvd_left period j
  have d4 : period ∣ bottom height period j := dvd_right j hdh
  refine ⟨⟨d1, d2, d3, d4⟩, ⟨(right_nonneg hp hi hw).1, (right_nonneg hp hi hw).2,
    (right_nonneg hp hj hh).1, (right_nonneg hp hj hh).2⟩, ?_⟩
  intro sample sample' h
  exact perlinNoise_congr sample sample' width height period i j (h _ _ d1 d3) (h _ _ d2 d3)
    (h _ _ d1 d4) (h _ _ d2 d4)

/-- Witness of C9 (amended): an `8 × 8` field of period `4`, pixel `(7, 1)`. -/
theorem corners_on_lattice_witness :
    ((0 : Int) < 8 ∧ (0 : Int) < 4 ∧ (0 : Int) ≤ 7 ∧ (0 : Int) ≤ 1 ∧ (4 : Int) ∣ 8) ∧
      ((4 : Int) ∣ left 4 7 ∧ (4 : Int) ∣ right 8 4 7 ∧ (4 : Int) ∣ top 4 1 ∧
        (4 : Int) ∣ bottom 8 4 1) :=
  ⟨by decide, (corners_on_lattice ℚ 8 8 4 7 1 (by decide) (by decide) (by decide)
    (by decide) (by decide) (by decide) (by decide)).1⟩

end PerlinClaims

/-! ## Claims about the accumulator -/

section AccumulatorClaims

variable {F : Type} [LinearOrderedField F] [FloorRing F]

/-- Counterexample to C2 as stated: on a `3 × 2` field the pixels `(2, 0)` and
`(0, 1)` share the index `2 = 2 + 0 * 2 = 0 + 1 * 2`, so with one octave,
`offset = 1/10` and a noise field that is `1` everywhere the heightmap cell of
pixel `(2, 0)` ends at `2 * (1/10 + 1)`, not at `1/10 + 1`. -/
theorem single_octave_aliasing :
    accumulate floorPow (List.replicate 6 (some (1 : ℚ))) 3 2 1 (8 / 10) 2 (1 / 10)
        = some [some (11 / 10), some (11 / 10), some (22 / 10), some (11 / 10), some (11 / 10),
            none] ∧
      readBuf [some (11 / 10 : ℚ), some (11 / 10), some (22 / 10), some (11 / 10),
          some (11 / 10), none] (2 + 0 * 2) ≠ some (1 / 10 + 1) := by
  decide!

/-- Claim C2, amended: on a square field (`width = height`, as in the source)
with `octaves = 1`, whatever `H`, `lacunarity` and `offset` are, the accumulator
is defined and leaves `heightmap[i + j * height] = offset + noiseField[i + j * height]`
for every pixel in range: the index sampled in octave `0` is `i + j * height`
and `exponent_array[0] = pow(1, -H) = 1`. -/
theorem accumulate_single_octave (pw : F → F → F) (nf : Int → F) (perlin_data : Buffer F)
    (width height : Int) (H lacunarity offset : F) (hw : 0 < width) (hsq : width = height)
    (hpd : ∀ m : Int, 0 ≤ m → m < width * height → readBuf perlin_data m = some (nf m))
    (hpow : pw 1 (-H) = 1) :
    ∃ heightmap, accumulate pw perlin_data width height 1 H lacunarity offset = some heightmap ∧
      ∀ i j : Int, 0 ≤ i → i < width → 0 ≤ j → j < height →
        sampleIndex width height i j = i + j * height ∧
        readBuf heightmap (i + j * height) = some (offset + nf (i + j * height)) := by
  subst hsq
  obtain ⟨n, rfl⟩ := Int.eq_ofNat_of_zero_le hw.le
  obtain ⟨hm, hhm, -, hr⟩ := accumulate_spec pw nf perlin_data n 1 H lacunarity offset hpd
    (fun k h0 h1 => absurd h1 (by omega))
  refine ⟨hm, hhm, ?_⟩
  intro i j hi0 hi1 hj0 hj1
  obtain ⟨i', rfl⟩ := Int.eq_ofNat_of_zero_le hi0
  obtain ⟨j', rfl⟩ := Int.eq_ofNat_of_zero_le hj0
  have e1 : (i' : Int) % (n : Int) = i' := Int.emod_eq_of_lt hi0 hi1
  have e2 : (j' : Int) % (n : Int) = j' := Int.emod_eq_of_lt hj0 hj1
  constructor
  · unfold sampleIndex
    rw [Int.tmod_eq_emod hi0 hw.le, Int.tmod_eq_emod hj0 hw.le, e1, e2]
  · have := hr i' j' (by exact_mod_cast hi1) (by exact_mod_cast hj1)
    rw [this]
    simp [e1, e2, hpow]

/-- Counterexample to C3 as stated.  (1) On a `3 × 2` field the pixels `(2, 0)`
and `(0, 1)` share index `2`, so with two octaves, `lacunarity = 2` and a noise
field that is `1` everywhere, cell `2` accumulates four terms instead of two.
(2) With `lacunarity = -1` on a `2 × 2` field, pixel `(0, 1)` samples the
negative index `-2` in octave `1`.  (3) With `lacunarity = 46341` and three
octaves on a `2 × 2` field the coordinates of pixel `(0, 0)` never overflow,
but `J` of pixel `(0, 1)` wraps to a negative value and index `-2` is sampled. -/
theorem accumulate_octaves_undefined :
    ((accumulate floorPow (List.replicate 6 (some (1 : ℚ))) 3 2 2 0 2 (1 / 10)).bind
          (fun hm => readBuf hm (2 + 0 * 2)) = some (4 * (1 / 10 + 1)) ∧
        (4 * (1 / 10 + 1) : ℚ) ≠
          (1 / 10 + 1 * floorPow (2 ^ 0) (-0)) + (1 / 10 + 1 * floorPow (2 ^ 1) (-0))) ∧
      accumulate floorPow (List.replicate 4 (some (1 : ℚ))) 2 2 2 0 (-1) (1 / 10) = none ∧
      accumulate floorPow (List.replicate 4 (some (1 : ℚ))) 2 2 3 0 46341 (1 / 10) = none := by
  decide!

/-- Claim C3, amended: on a square field (`width = height`) with
`L = (int) lacunarity ≥ 0`, if no pixel coordinate overflows
(`(width - 1) * L ^ k < 2 ^ 31` for every `k < octaves`), the accumulator is
defined and for every pixel in range
`heightmap[i + j * height] = Σ_{k < octaves} (offset + noiseField[p_k] * exponent_array[k])`
with `p_k = ((i * L ^ k) mod width) + ((j * L ^ k) mod height) * height` and
`exponent_array[k] = pow(lacunarity ^ k, -H)`; in particular `offset` is added
once per octave, `octaves * offset` in total. -/
theorem accumulate_octave_sum (pw : F → F → F) (nf : Int → F) (perlin_data : Buffer F)
    (width height : Int) (octaves : Nat) (H lacunarity offset : F)
    (hw : 0 < width) (hsq : width = height)
    (hpd : ∀ m : Int, 0 ≤ m → m < width * height → readBuf perlin_data m = some (nf m))
    (hL : 0 ≤ castInt lacunarity)
    (hov : ∀ k : Nat, k < octaves → (width - 1) * castInt lacunarity ^ k < 2 ^ 31) :
    ∃ heightmap,
      accumulate pw perlin_data width height (octaves : Int) H lacunarity offset
        = some heightmap ∧
      ∀ i j : Int, 0 ≤ i → i < width → 0 ≤ j → j < height →
        readBuf heightmap (i + j * height) = some (∑ k in Finset.range octaves,
          (offset + nf ((i * castInt lacunarity ^ k) % width +
            ((j * castInt lacunarity ^ k) % height) * height) * pw (lacunarity ^ k) (-H))) ∧
        (∑ k in Finset.range octaves,
          (offset + nf ((i * castInt lacunarity ^ k) % width +
            ((j * castInt lacunarity ^ k) % height) * height) * pw (lacunarity ^ k) (-H)))
          = (octaves : F) * offset + ∑ k in Finset.range octaves,
              nf ((i * castInt lacunarity ^ k) % width +
                ((j * castInt lacunarity ^ k) % height) * height) * pw (lacunarity ^ k) (-H) := by
  subst hsq
  obtain ⟨n, rfl⟩ := Int.eq_ofNat_of_zero_le hw.le
  have hcoord : ∀ k : Nat, 0 < k → k < octaves → ∀ x : Int, 0 ≤ x → x < n →
      0 ≤ x * castInt lacunarity ^ k ∧ x * castInt lacunarity ^ k < 2 ^ 31 := by
    intro k _ hk x hx0 hx1
    have hpk : 0 ≤ castInt lacunarity ^ k := pow_nonneg hL k
    refine ⟨mul_nonneg hx0 hpk, lt_of_le_of_lt ?_ (hov k hk)⟩
    exact mul_le_mul_of_nonneg_right (by omega) hpk
  obtain ⟨hm, hhm, -, hr⟩ := accumulate_spec pw nf perlin_data n octaves H lacunarity offset hpd
    hcoord
  refine ⟨hm, hhm, ?_⟩
  intro i j hi0 hi1 hj0 hj1
  obtain ⟨i', rfl⟩ := Int.eq_ofNat_of_zero_le hi0
  obtain ⟨j', rfl⟩ := Int.eq_ofNat_of_zero_le hj0
  refine ⟨hr i' j' (by exact_mod_cast hi1) (by exact_mod_cast hj1), ?_⟩
  rw [Finset.sum_add_distrib, Finset.sum_const, Finset.card_range, nsmul_eq_mul]

/-- Witness of C2 (amended), the scenario of the specification:
`width = height = 4`, `period = 4`, one octave, `H = 0.8`, `lacunarity = 2`,
`offset = 0.1` and gradient `(1, 0)` in every cell.  The heightmap holds `0.1`
at pixel `(0, 0)` and `0.1 + f` at pixel `(2, 2)`, `f` being the cell formula
at `dx = dy = 1/2`. -/
theorem accumulate_single_octave_witness :
    perlin2D (fun _ _ => ((1 : ℚ), (0 : ℚ))) 4 4 4
        = some [some 0, some (75 / 512), some 0, some (-75 / 512),
            some 0, some (75 / 512), some 0, some (-75 / 512),
            some 0, some (75 / 512), some 0, some (-75 / 512),
            some 0, some (75 / 512), some 0, some (-75 / 512)] ∧
      ∃ heightmap,
        accumulate floorPow [some 0, some (75 / 512), some 0, some (-75 / 512),
            some 0, some (75 / 512), some 0, some (-75 / 512),
            some 0, some (75 / 512), some 0, some (-75 / 512),
            some 0, some (75 / 512), some 0, some (-75 / 512)] 4 4 1 (8 / 10) 2 (1 / 10)
          = some heightmap ∧
        readBuf heightmap (0 + 0 * 4) = some (1 / 10) ∧
        readBuf heightmap (2 + 2 * 4)
          = some (1 / 10 + cellFormula (1, 0) (1, 0) (1, 0) (1, 0) (1 / 2) (1 / 2)) :=
  ⟨by decide!,
    (accumulate_single_octave floorPow
      (fun m => (readBuf [some 0, some (75 / 512), some 0, some (-75 / 512),
            some 0, some (75 / 512), some 0, some (-75 / 512),
            some 0, some (75 / 512), some 0, some (-75 / 512),
            some 0, some (75 / 512), some 0, some (-75 / 512)] m).getD 0)
      _ 4 4 (8 / 10) 2 (1 / 10) (by decide) rfl
      (by intro m h0 h1; interval_cases m <;> decide!) (by decide!)).imp
      (fun _ h => ⟨h.1,
        (h.2 0 0 (by decide) (by decide) (by decide) (by decide)).2.trans (by decide!),
        (h.2 2 2 (by decide) (by decide) (by decide) (by decide)).2.trans (by decide!)⟩)⟩

/-- Witness of C3 (amended): a `4 × 4` field that is `1` everywhere, two
octaves, `lacunarity = 2`, pixel `(1, 3)`. -/
theorem accumulate_octave_sum_witness :
    ∃ heightmap,
      accumulate floorPow (List.replicate 16 (some (1 : ℚ))) 4 4 ((2 : Nat) : Int) 0 2 (1 / 10)
        = some heightmap ∧
      readBuf heightmap (1 + 3 * 4) = some (∑ k in Finset.range 2,
        ((1 / 10 : ℚ) + (fun _ => (1 : ℚ)) ((1 * castInt (2 : ℚ) ^ k) % 4 +
          ((3 * castInt (2 : ℚ) ^ k) % 4) * 4) * floorPow (2 ^ k) (-0))) :=
  (accumulate_octave_sum floorPow (fun _ => (1 : ℚ)) (List.replicate 16 (some (1 : ℚ))) 4 4 2 0 2
    (1 / 10) (by decide) rfl (by intro m h0 h1; interval_cases m <;> decide!) (by decide!)
    (by intro k hk; interval_cases k <;> decide!)).imp
    (fun _ h => ⟨h.1, (h.2 1 3 (by decide) (by decide) (by decide) (by decide)).1⟩)

/-- Claim C4: for `lacunarity ∈ [1, 2)` the conversion `(int) lacunarity` is `1`,
so for every pixel in range the running coordinates never change: after any
number `k` of octaves `(I, J) = (i, j)`, and the index sampled in octave `k` is
the index sampled in octave `0`, `(i mod width) + (j mod height) * height`. -/
theorem frozen_coordinates (lacunarity : F) (h1 : 1 ≤ lacunarity) (h2 : lacunarity < 2)
    (width height i j : Int) (hw : width < 2 ^ 31) (hh : height < 2 ^ 31)
    (hi0 : 0 ≤ i) (hi1 : i < width) (hj0 : 0 ≤ j) (hj1 : j < height) (k : Nat) :
    castInt lacunarity = 1 ∧
      ((nextCoord lacunarity)^[k] i = i ∧ (nextCoord lacunarity)^[k] j = j) ∧
      sampleIndex width height ((nextCoord lacunarity)^[k] i) ((nextCoord lacunarity)^[k] j)
        = sampleIndex width height i j ∧
      sampleIndex width height i j = i % width + (j % height) * height ∧
      ∀ (pd ea nd : Buffer F) (offset : F) (st : Int × Int × Buffer F),
        octaveLoop pd ea width height (k : Int) lacunarity offset i j nd = some st →
          st.1 = i ∧ st.2.1 = j ∧
            sampleIndex width height st.1 st.2.1 = sampleIndex width height i j := by
  have hL := castInt_of_one_le_lt_two h1 h2
  have ei := nextCoord_iterate_of_one hL hi0 (by linarith) k
  have ej := nextCoord_iterate_of_one hL hj0 (by linarith) k
  refine ⟨hL, ⟨ei, ej⟩, by rw [ei, ej], ?_, ?_⟩
  · unfold sampleIndex
    rw [Int.tmod_eq_emod hi0 (by linarith), Int.tmod_eq_emod hj0 (by linarith)]
  · intro pd ea nd offset st hst
    obtain ⟨c1, c2⟩ := octaveLoop_coords pd ea nd width height lacunarity offset i j k st hst
    rw [ei] at c1
    rw [ej] at c2
    exact ⟨c1, c2, by rw [c1, c2]⟩

/-- Witness of C4: `lacunarity = 3/2`, a `2 × 2` field, pixel `(1, 1)`, three
octaves: the loop is defined and ends with `(I, J) = (1, 1)`. -/
theorem frozen_coordinates_witness :
    octaveLoop (List.replicate 4 (some (1 : ℚ))) (List.replicate 3 (some (1 : ℚ))) 2 2
        ((3 : Nat) : Int) (3 / 2) (1 / 10) 1 1 (List.replicate 4 (some (0 : ℚ)))
        = some (1, 1, [some 0, some 0, some 0, some (33 / 10)]) ∧
      ((1, 1, [some 0, some 0, some 0, some (33 / 10)]) : Int × Int × Buffer ℚ).1 = 1 ∧
      ((1, 1, [some 0, some 0, some 0, some (33 / 10)]) : Int × Int × Buffer ℚ).2.1 = 1 :=
  ⟨by decide!,
    ((frozen_coordinates (3 / 2 : ℚ) (by norm_num) (by norm_num) 2 2 1 1 (by decide) (by decide)
      (by decide) (by decide) (by decide) (by decide) 3).2.2.2.2
      (List.replicate 4 (some (1 : ℚ))) (List.replicate 3 (some (1 : ℚ)))
      (List.replicate 4 (some (0 : ℚ))) (1 / 10) _ (by decide!)).1,
    ((frozen_coordinates (3 / 2 : ℚ) (by norm_num) (by norm_num) 2 2 1 1 (by decide) (by decide)
      (by decide) (by decide) (by decide) (by decide) 3).2.2.2.2
      (List.replicate 4 (some (1 : ℚ))) (List.replicate 3 (some (1 : ℚ)))
      (List.replicate 4 (some (0 : ℚ))) (1 / 10) _ (by decide!)).2.1⟩

/-- Claim C8, evaluated at the failing input `width = 1`, `height = 2`,
`period = 1`: pixel `(0, 1)` has index `0 + 1 * 2 = 2`, outside the allocation
of `1 * 2` cells, and gradient index `2 * (0 + 1 * 2) = 4`, outside the
allocation of `1 * 2 * 2` cells; the gradient fill loop, the zero-initialisation
loop of the accumulator and `perlin2D` itself are undefined there, and so are
the noise-field read at the sampled index and the gradient read at the corner
`(left, top) = (0, 1)` even on fully initialised buffers. -/
theorem perlin2D_out_of_bounds :
    perlin2D (fun _ _ => ((1 : ℚ), (0 : ℚ))) 1 2 1 = none ∧
      fillGradients (fun _ _ => ((1 : ℚ), (0 : ℚ))) 1 2 (alloc ℚ (1 * 2 * 2)) = none ∧
      writeBuf (alloc ℚ (1 * 2 * 2)) (2 * (0 + 1 * 2)) (1 : ℚ) = none ∧
      writeBuf (alloc ℚ (1 * 2)) (0 + 1 * 2) (0 : ℚ) = none ∧
      zeroLoop 1 2 (alloc ℚ (1 * 2)) = none ∧
      readBuf (List.replicate 2 (some (1 : ℚ))) (sampleIndex 1 2 0 1) = none ∧
      sample_gradient (List.replicate 4 (some (1 : ℚ))) 2 (left 1 0) (top 1 1) = none := by
  decide!

end AccumulatorClaims

end ProceduralTerrain
